import Mathlib

/-!
Verification of the istanbul consensus configuration / envelope-type layer:
a shallow embedding of `consensus/istanbul/config.go`, `consensus/istanbul/types.go`
and the `params.Transition` record, with theorems about the transition resolver,
the `View` ordering, the RLP wire encoding, and the proposer-policy registry.

Modelling conventions:
* `*big.Int` values are `Int`; a possibly-nil `*big.Int` argument is `Option Int`.
* `uint64` fields are `Nat`; an arithmetic step that can wrap takes an explicit
  `% 2^64`.
* `common.Address` is opaque: only equality and list membership matter here,
  so it is modelled as `Nat`.
* Nil pointer fields (`*uint64`, `*string`, `*bool`, ...) are `Option _`.
* A nil slice and an empty slice of transitions are indistinguishable to every
  loop in the source that reads them (`for i := 0; i < len(...)`), so slices
  are plain lists.
-/

namespace Istanbul

/-- Model of `common.Address`, modelled abstractly by its identity. -/
abbrev Address := Nat

/-- Modulus of Go's `uint64` arithmetic. -/
def UINT64_MOD : Nat := 2 ^ 64

/-- Constant `params.ContractMode`. -/
def ContractMode : String := "contract"

/-- Constant `params.BlockHeaderMode`. -/
def BlockHeaderMode : String := "blockheader"

/-- Record `params.Transition` (fields used by the istanbul resolver).
`Block` is the activation height; every other field is a sparse override.
A field the resolver never reads (`ContractSizeLimit`, `MinerGasLimit`,
...) is carried in the Go record but irrelevant to every function modelled
here and is omitted. -/
structure Transition where
  block : Int
  epochLength : Nat := 0
  blockPeriodSeconds : Nat := 0
  emptyBlockPeriodSeconds : Option Nat := none
  requestTimeoutSeconds : Nat := 0
  validators : List Address := []
  validatorSelectionMode : String := ""
  twoFPlusOneEnabled : Option Bool := none
  blockReward : Option Int := none
  beneficiaryMode : Option String := none
  miningBeneficiary : Option Address := none
  maxRequestTimeoutSeconds : Option Nat := none
  deriving Repr, DecidableEq

/-- Record `istanbul.Config`.  The `ProposerPolicy` and `Client` fields of the
Go struct are never read or written by any resolver function modelled here
(they are copied unchanged by `newConfig := c`), so they are not
represented. -/
structure Config where
  requestTimeout : Nat := 0
  blockPeriod : Nat := 0
  emptyBlockPeriod : Nat := 0
  epoch : Nat := 0
  ceil2Nby3Block : Option Int := none
  allowedFutureBlockTime : Nat := 0
  beneficiaryMode : Option String := none
  blockReward : Option Int := none
  miningBeneficiary : Option Address := none
  validators : List Address := []
  validatorSelectionMode : Option String := none
  maxRequestTimeoutSeconds : Nat := 0
  transitions : List Transition := []
  deriving Repr, DecidableEq

/-- Loop of `Config.getTransitionValue`: the callback is applied to successive
transitions in list order, stopping at the first whose `Block` exceeds
`num` (`for i := 0; i < len(c.Transitions) &&
c.Transitions[i].Block.Cmp(num) <= 0; i++`); a nil `num` skips the loop
entirely.  The Go callback mutates enclosing state, modelled as a fold
over an explicit accumulator. -/
def Config.getTransitionValue {σ : Type} (c : Config) (num : Option Int)
    (init : σ) (callback : σ → Transition → σ) : σ :=
  match num with
  | none => init
  | some n => (c.transitions.takeWhile (fun t => t.block ≤ n)).foldl callback init

/-- The callback literal inside `Config.GetConfig`.  The Go code is a sequence
of independent single-field conditional assignments into `newConfig`; each
guard reads only `transition` and each branch writes a distinct field, so
the sequence equals this simultaneous per-field update. -/
def applyTransitionOverrides (newConfig : Config) (transition : Transition) : Config :=
  { newConfig with
    requestTimeout :=
      if transition.requestTimeoutSeconds ≠ 0 then
        -- RequestTimeout is on milliseconds (uint64 product)
        transition.requestTimeoutSeconds * 1000 % UINT64_MOD
      else newConfig.requestTimeout
    epoch :=
      if transition.epochLength ≠ 0 then transition.epochLength
      else newConfig.epoch
    blockPeriod :=
      if transition.blockPeriodSeconds ≠ 0 then transition.blockPeriodSeconds
      else newConfig.blockPeriod
    emptyBlockPeriod :=
      match transition.emptyBlockPeriodSeconds with
      | some v => v
      | none => newConfig.emptyBlockPeriod
    beneficiaryMode :=
      match transition.beneficiaryMode with
      | some m => some m
      | none => newConfig.beneficiaryMode
    blockReward :=
      match transition.blockReward with
      | some r => some r
      | none => newConfig.blockReward
    miningBeneficiary :=
      match transition.miningBeneficiary with
      | some a => some a
      | none => newConfig.miningBeneficiary
    validatorSelectionMode :=
      if transition.validatorSelectionMode ≠ "" then
        some transition.validatorSelectionMode
      else newConfig.validatorSelectionMode
    validators :=
      if transition.validators.length > 0 then transition.validators
      else newConfig.validators
    maxRequestTimeoutSeconds :=
      match transition.maxRequestTimeoutSeconds with
      | some v => v
      | none => newConfig.maxRequestTimeoutSeconds }

/-- Function `Config.GetConfig`: start from a copy of the base config and fold
the applicable transitions' overrides into it. -/
def Config.getConfig (c : Config) (blockNumber : Option Int) : Config :=
  c.getTransitionValue blockNumber c applyTransitionOverrides

/-- Function `Config.GetValidatorSelectionMode`. -/
def Config.getValidatorSelectionMode (c : Config) (blockNumber : Option Int) : String :=
  let mode :=
    match c.validatorSelectionMode with
    | some m => m
    | none => BlockHeaderMode
  c.getTransitionValue blockNumber mode (fun mode transition =>
    if transition.validatorSelectionMode ≠ "" then transition.validatorSelectionMode
    else mode)

/-- Function `Config.GetValidatorsAt`.  The Go function evaluates
`blockNumber.Cmp(big.NewInt(0))` before any nil test, so a nil height is a
nil dereference (panic), modelled as `none`.  For a non-nil height the
transition loop's condition `c.Transitions[i].Block.Cmp(blockNumber) == 0`
is checked at `i = 0` and the body returns, so only the first transition
is ever examined. -/
def Config.getValidatorsAt (c : Config) (blockNumber : Option Int) :
    Option (List Address) :=
  match blockNumber with
  | none => none
  | some n =>
    if n = 0 ∧ c.validators.length > 0 then
      some c.validators
    else
      match c.transitions with
      | [] => some []
      | t :: _ => if t.block = n then some t.validators else some []

/-- Function `Config.Get2FPlus1Enabled`. -/
def Config.get2FPlus1Enabled (c : Config) (blockNumber : Option Int) : Bool :=
  c.getTransitionValue blockNumber false (fun acc transition =>
    match transition.twoFPlusOneEnabled with
    | some b => b
    | none => acc)

/-- The spec's well-formedness assumption on a transition log: heights ascend
("Transitions are stored in ascending block-height order"). -/
def ascendingByHeight (ts : List Transition) : Prop :=
  ts.Pairwise (fun a b => a.block ≤ b.block)

instance (ts : List Transition) : Decidable (ascendingByHeight ts) := by
  unfold ascendingByHeight
  infer_instance

/-- Base config of the request-timeout scenario: `{RequestTimeout:10000ms,
Epoch:30000}` with one transition `{Block:100, RequestTimeoutSeconds:5}`. -/
def requestTimeoutScenario : Config :=
  { requestTimeout := 10000
    epoch := 30000
    transitions := [{ block := 100, requestTimeoutSeconds := 5 }] }

/-- Sample config illustrating the per-field fold. -/
def foldSample : Config :=
  { epoch := 3
    blockPeriod := 5
    validators := [7]
    transitions :=
      [{ block := 5, epochLength := 40 },
       { block := 9, blockPeriodSeconds := 2, validators := [8, 9] }] }

/-- Sample transition with every override present. -/
def fullTransition : Transition :=
  { block := 5
    epochLength := 40
    blockPeriodSeconds := 2
    emptyBlockPeriodSeconds := some 11
    requestTimeoutSeconds := 6
    validators := [8]
    validatorSelectionMode := "contract"
    twoFPlusOneEnabled := some true
    blockReward := some 12
    beneficiaryMode := some "besu"
    miningBeneficiary := some 13
    maxRequestTimeoutSeconds := some 14 }

/-- The claim's description of the `2F+1` flag resolution: the
`TwoFPlusOneEnabled` value of the last transition of height `<= h` that
carries one. -/
def lastExplicitTwoFPlusOne (ts : List Transition) (h : Int) : Option Bool :=
  ((ts.filter (fun t => t.block ≤ h)).filterMap (fun t => t.twoFPlusOneEnabled)).getLast?

/-- Sample config with two explicit `TwoFPlusOneEnabled` overrides. -/
def twoFSample : Config :=
  { transitions :=
      [{ block := 5, twoFPlusOneEnabled := some true },
       { block := 9, twoFPlusOneEnabled := some false },
       { block := 12 }] }

/-- Config for the C2 counterexample: empty base validator list and a first
transition activating at height 0. -/
def zeroHeightTransitionConfig : Config :=
  { validators := [], transitions := [{ block := 0, validators := [1] }] }

/-- The two-transition scenario of C2: `[{Block:10, Validators:[A]},
{Block:20, Validators:[B]}]` with `A = 1`, `B = 2`. -/
def twoTransitionValidators : Config :=
  { transitions :=
      [{ block := 10, validators := [1] }, { block := 20, validators := [2] }] }

/-- Record `istanbul.View`: a round number and a sequence number (`*big.Int`
fields, assumed non-nil as the claim requires). -/
structure View where
  round : Int
  sequence : Int
  deriving Repr, DecidableEq

/-- Comparison `big.Int.Cmp`: -1, 0 or +1. -/
def bigCmp (x y : Int) : Int := if x < y then -1 else if x = y then 0 else 1

/-- Comparison `View.Cmp`: compare sequences first, then rounds. -/
def View.cmp (v y : View) : Int :=
  if bigCmp v.sequence y.sequence ≠ 0 then bigCmp v.sequence y.sequence
  else if bigCmp v.round y.round ≠ 0 then bigCmp v.round y.round
  else 0

/-- A validator, identified by its address (`types.go` keeps `Validator`
abstract behind an interface; only identity matters to the registry
model). -/
abbrev Validator := Address

/-- Type `ValidatorSortByFunc`. -/
abbrev ValidatorSortByFunc := Validator → Validator → Bool

/-- Insert into a sorted list, preserving order. -/
def orderedInsert (le : ValidatorSortByFunc) (a : Validator) :
    List Validator → List Validator
  | [] => [a]
  | b :: l => if le a b then a :: b :: l else b :: orderedInsert le a l

/-- Modelled from the spec: `ValidatorSet.SortValidators` implementations are
not under `src/` (only the `ValidatorSet` interface declaration is); per
spec 4.1 it "re-applies the policy's comparison function to the member
list", modelled as a comparison-sort of the member list. -/
def sortValidators (le : ValidatorSortByFunc) (vs : List Validator) :
    List Validator :=
  vs.foldr (orderedInsert le) []

/-- Discriminant `ProposerPolicyId` (`RoundRobin | Sticky`). -/
inductive ProposerPolicyId
  | roundRobin
  | sticky
  deriving Repr, DecidableEq

/-- Record `istanbul.ProposerPolicy`: discriminant, sort function and registry
of tracked validator sets.  A registered `ValidatorSet` is represented by
its member list.  The `registryMU` mutex is not part of the sequential
state; lock usage is modelled by the event traces below. -/
structure ProposerPolicy where
  id : ProposerPolicyId
  By : ValidatorSortByFunc
  registry : List (List Validator)

/-- Function `ProposerPolicy.Use`: store the new sort function, then walk the
whole registry re-sorting every registered set with it before returning. -/
def ProposerPolicy.use (p : ProposerPolicy) (v : ValidatorSortByFunc) :
    ProposerPolicy :=
  let p := { p with By := v }
  { p with registry := p.registry.map (sortValidators p.By) }

/-- Function `ProposerPolicy.RegisterValidatorSet`: append under lock (`len ==
0` reinitialises, otherwise appends; both are the same list append). -/
def ProposerPolicy.registerValidatorSet (p : ProposerPolicy)
    (valSet : List Validator) : ProposerPolicy :=
  if p.registry.length = 0 then { p with registry := [valSet] }
  else { p with registry := p.registry ++ [valSet] }

/-- Function `ProposerPolicy.ClearRegistry`: drop every tracked set under
lock. -/
def ProposerPolicy.clearRegistry (p : ProposerPolicy) : ProposerPolicy :=
  { p with registry := [] }

/-- Address comparison by linear order: a total, transitive sort function. -/
def leByAddress : ValidatorSortByFunc := fun a b => decide (a ≤ b)

/-- Events observable on the shared registry and its mutex, in program order.
Events observable on the shared registry and its mutex, in program order. -/
inductive RegistryEvent
  | lock
  | unlock
  | registryRead
  | registryWrite
  | sortSet (i : Nat)
  | sortFnWrite
  deriving Repr, DecidableEq

/-- Trace of `RegisterValidatorSet`: `registryMU.Lock()`, read
`len(p.registry)`, write the appended registry, deferred `Unlock()`. -/
def registerValidatorSetTrace : List RegistryEvent :=
  [.lock, .registryRead, .registryWrite, .unlock]

/-- Trace of `ClearRegistry`: `registryMU.Lock()`, `p.registry = nil`,
deferred `Unlock()`. -/
def clearRegistryTrace : List RegistryEvent :=
  [.lock, .registryWrite, .unlock]

/-- Trace of `Use` on a policy with `n` registered sets: assign `p.By`, range
over the registry, call `SortValidators` on each set.  `Use` contains no
mutex operation. -/
def useTrace (n : Nat) : List RegistryEvent :=
  .sortFnWrite :: .registryRead :: (List.range n).map RegistryEvent.sortSet

/-- The trace acquires the mutex first, performs everything else while holding
it, and releases it last. -/
def holdsLockForDuration (tr : List RegistryEvent) : Bool :=
  tr.head? = some .lock && tr.getLast? = some .unlock &&
    tr.length ≥ 2 &&
    tr.dropLast.tail.all (fun e => e != .lock && e != .unlock)

/-- Big-endian byte expansion with explicit fuel (`fuel >= n` suffices);
structural, so concrete values compute. -/
def beBytesAux : Nat → Nat → List Nat
  | _, 0 => []
  | 0, _ + 1 => []
  | fuel + 1, n + 1 => beBytesAux fuel ((n + 1) / 256) ++ [(n + 1) % 256]

/-- Minimal big-endian byte representation of a natural number (`[]` for 0),
as used by RLP for unsigned integers and long-form length prefixes. -/
def beBytes (n : Nat) : List Nat := beBytesAux n n

/-- Read a big-endian byte string as a natural number. -/
def fromBE (bs : List Nat) : Nat := bs.foldl (fun acc b => acc * 256 + b) 0

/-- An RLP value: a byte string or a list of RLP values. -/
inductive RlpItem where
  | str (bs : List Nat)
  | list (items : List RlpItem)
  deriving Repr

/-- Header bytes for a payload of `len` bytes at base offset `offset` (0x80
for strings, 0xc0 for lists): short form `offset + len` for `len < 56`,
long form `offset + 55 + k` followed by the `k`-byte big-endian length. -/
def encodeLength (len offset : Nat) : List Nat :=
  if len < 56 then [offset + len]
  else (offset + 55 + (beBytes len).length) :: beBytes len

/-- Modelled from the spec: the go-ethereum `rlp` package is not under `src/`;
this is the standard Ethereum RLP encoder the spec describes as "ordered-
field binary records" with a byte-identical round trip.  Fueled: any fuel
accepted by `wfbF` suffices and gives the same bytes, and the recursion is
structural on the fuel so concrete values compute.  A single byte below
0x80 encodes as itself; other strings and all lists get a length header
before their payload. -/
def encodeItemF : Nat → RlpItem → List Nat
  | 0, _ => []
  | fuel + 1, it =>
    match it with
    | .str bs =>
      match bs with
      | [b] => if b < 0x80 then [b] else encodeLength 1 0x80 ++ [b]
      | _ => encodeLength bs.length 0x80 ++ bs
    | .list items =>
      let payload := (items.map (encodeItemF fuel)).flatten
      encodeLength payload.length 0xc0 ++ payload

/-- RLP encoding of a sequence of values (a list payload), at a given fuel.
RLP encoding of a sequence of values (a list payload), at a given fuel. -/
def encodeItemsF (fuel : Nat) (items : List RlpItem) : List Nat :=
  (items.map (encodeItemF fuel)).flatten

/-- Fueled well-formedness: the fuel covers the value's depth, every byte is a
byte, and every length fits a `uint64` size header (go-ethereum's sizes
are `uint64`). -/
def wfbF : Nat → RlpItem → Bool
  | 0, _ => false
  | _ + 1, .str bs =>
    bs.all (fun b => decide (b < 256)) && decide (bs.length < 2 ^ 64)
  | fuel + 1, .list items =>
    items.all (wfbF fuel) && decide ((encodeItemsF fuel items).length < 2 ^ 64)

/-- Modelled from the spec: the `rlp.Stream` decoder is not under `src/`; the
spec requires decoding to "reject malformed or truncated encodings with a
decode error".  This is the standard Ethereum RLP decoder, enforcing
canonicity exactly as go-ethereum does: a single byte below 0x80 must be
encoded as itself, and a long size must be >= 56 with no leading zero in
the size bytes.  `single = true` decodes one item from the front of the
input and yields `([item], remainder)`; `single = false` decodes items
until the input is exhausted and yields `(items, [])`. -/
def rlpRun : Nat → Bool → List Nat → Option (List RlpItem × List Nat)
  | 0, _, _ => none
  | fuel + 1, true, input =>
    match input with
    | [] => none
    | b :: rest =>
      if b < 0x80 then some ([.str [b]], rest)
      else if b < 0xb8 then
        let len := b - 0x80
        if rest.length < len then none
        else
          let bs := rest.take len
          if len = 1 ∧ fromBE bs < 0x80 then none
          else some ([.str bs], rest.drop len)
      else if b < 0xc0 then
        let ll := b - 0xb7
        if rest.length < ll then none
        else
          let lenBytes := rest.take ll
          let len := fromBE lenBytes
          if lenBytes.head? = some 0 then none
          else if len < 56 then none
          else if (rest.drop ll).length < len then none
          else some ([.str ((rest.drop ll).take len)], (rest.drop ll).drop len)
      else if b < 0xf8 then
        let len := b - 0xc0
        if rest.length < len then none
        else
          match rlpRun fuel false (rest.take len) with
          | some (items, _) => some ([.list items], rest.drop len)
          | none => none
      else
        let ll := b - 0xf7
        if rest.length < ll then none
        else
          let lenBytes := rest.take ll
          let len := fromBE lenBytes
          if lenBytes.head? = some 0 then none
          else if len < 56 then none
          else if (rest.drop ll).length < len then none
          else
            match rlpRun fuel false ((rest.drop ll).take len) with
            | some (items, _) => some ([.list items], (rest.drop ll).drop len)
            | none => none
  | fuel + 1, false, input =>
    match input with
    | [] => some ([], [])
    | _ :: _ =>
      match rlpRun fuel true input with
      | some ([it], rest) =>
        match rlpRun fuel false rest with
        | some (items, _) => some (it :: items, [])
        | none => none
      | _ => none

/-- Decode one RLP value from the front of the input. -/
def decodeItem (fuel : Nat) (input : List Nat) : Option (RlpItem × List Nat) :=
  match rlpRun fuel true input with
  | some ([it], rest) => some (it, rest)
  | _ => none

/-- Fuel sufficient to decode any value encoded in `input`. -/
def stdFuel (input : List Nat) : Nat := 2 * input.length + 2

/-- RLP item of a non-negative `*big.Int`: its minimal big-endian string. -/
def intItem (n : Nat) : RlpItem := .str (beBytes n)

/-- The go-ethereum decoder accepts a `*big.Int` only from a string item with
no leading zero byte ("non-canonical integer" otherwise). -/
def decodeBigInt : RlpItem → Option Nat
  | .str bs => if bs.head? = some 0 then none else some (fromBE bs)
  | .list _ => none

/-- The wire record of a `View`: the ordered list `[Round, Sequence]`
(`View.EncodeRLP` writes the two fields in that order). -/
def viewItem (v : View) : RlpItem :=
  .list [intItem v.round.toNat, intItem v.sequence.toNat]

/-- Wire bytes of a `View`; the record has fixed depth, so fuel 2 encodes it.
Wire bytes of a `View`; the record has fixed depth, so fuel 2 encodes it. -/
def viewBytes (v : View) : List Nat := encodeItemF 2 (viewItem v)

/-- Function `View.EncodeRLP`; go's `rlp.Encode` reports an error on a
negative `*big.Int`, modelled as `none`. -/
def View.encodeRLP (v : View) : Option (List Nat) :=
  if 0 ≤ v.round ∧ 0 ≤ v.sequence then some (viewBytes v) else none

/-- Decode a `[Round, Sequence]` record from an RLP value: exactly two
canonical integer fields. -/
def viewOfItem : RlpItem → Option View
  | .list [r, s] =>
    match decodeBigInt r, decodeBigInt s with
    | some rn, some sn => some ⟨(rn : Int), (sn : Int)⟩
    | _, _ => none
  | _ => none

/-- Function `View.DecodeRLP`: read one value from the stream; on success
overwrite the receiver's two fields, on a malformed or truncated stream
report the decode error (`false`) with the receiver untouched. -/
def View.decodeRLP (v : View) (input : List Nat) : View × Bool :=
  match decodeItem (stdFuel input) input with
  | some (it, _) =>
    match viewOfItem it with
    | some w => (w, true)
    | none => (v, false)
  | none => (v, false)

/-- Type `common.Hash` is a 32-byte array; RLP decodes it only from a string
of exactly 32 bytes. -/
def hashOfItem : RlpItem → Option (List Nat)
  | .str bs => if bs.length = 32 then some bs else none
  | .list _ => none

/-- Record `istanbul.Subject`: a view and the voted proposal's digest
(`common.Hash`, 32 bytes). -/
structure Subject where
  view : View
  digest : List Nat
  deriving Repr, DecidableEq

/-- The wire record of a `Subject`: `[View, Digest]`. -/
def subjectItem (s : Subject) : RlpItem := .list [viewItem s.view, .str s.digest]

/-- Wire bytes of a `Subject` (fixed depth 3). -/
def subjectBytes (s : Subject) : List Nat := encodeItemF 3 (subjectItem s)

/-- Function `Subject.EncodeRLP`. -/
def Subject.encodeRLP (s : Subject) : Option (List Nat) :=
  if 0 ≤ s.view.round ∧ 0 ≤ s.view.sequence then some (subjectBytes s) else none

/-- Function `Subject.DecodeRLP`: the record `[View, Digest]`, receiver
untouched on a decode error. -/
def Subject.decodeRLP (s : Subject) (input : List Nat) : Subject × Bool :=
  match decodeItem (stdFuel input) input with
  | some (.list [vi, di], _) =>
    match viewOfItem vi, hashOfItem di with
    | some w, some d => (⟨w, d⟩, true)
    | _, _ => (s, false)
  | _ => (s, false)

/-- Modelled from the spec: `types.Block` - the only production `Proposal` -
is not under `src/`; the spec's `Proposal` contract requires only a
"deterministic binary encode/decode pair", so a proposal's wire form is
modelled as an arbitrary well-formed RLP value. -/
abbrev Proposal := RlpItem

/-- Record `istanbul.Preprepare`: a view and the proposed block. -/
structure Preprepare where
  view : View
  proposal : Proposal

/-- The wire record of a `Preprepare`: `[View, Proposal]`. -/
def preprepareItem (b : Preprepare) : RlpItem := .list [viewItem b.view, b.proposal]

/-- Wire bytes of a `Preprepare`; the fuel must cover the proposal's depth
(any fuel accepted by `wfbF` yields the same bytes, by
`encodeItemF_stable`). -/
def preprepareBytesF (fuel : Nat) (b : Preprepare) : List Nat :=
  encodeItemF fuel (preprepareItem b)

/-- Function `Preprepare.DecodeRLP`: the record `[View, Proposal]`, receiver
untouched on a decode error. -/
def Preprepare.decodeRLP (b : Preprepare) (input : List Nat) : Preprepare × Bool :=
  match decodeItem (stdFuel input) input with
  | some (.list [vi, pi], _) =>
    match viewOfItem vi with
    | some w => (⟨w, pi⟩, true)
    | none => (b, false)
  | _ => (b, false)

/-- A `View` value valid for the wire: non-negative fields of `uint64`-headed
byte length. -/
def View.validRLP (v : View) : Prop :=
  0 ≤ v.round ∧ 0 ≤ v.sequence ∧ wfbF 2 (viewItem v) = true

/-- A `Subject` value valid for the wire. -/
def Subject.validRLP (s : Subject) : Prop :=
  0 ≤ s.view.round ∧ 0 ≤ s.view.sequence ∧ s.digest.length = 32 ∧
    wfbF 3 (subjectItem s) = true

instance (v : View) : Decidable (View.validRLP v) := by
  unfold View.validRLP
  infer_instance

instance (s : Subject) : Decidable (Subject.validRLP s) := by
  unfold Subject.validRLP
  infer_instance

/-- The stream `input` begins with the wire record of some wire-valid `View`.
The stream `input` begins with the wire record of some wire-valid `View`. -/
def isViewStream (input : List Nat) : Prop :=
  ∃ v rest, View.validRLP v ∧ input = viewBytes v ++ rest

/-- The stream `input` begins with the wire record of some wire-valid
`Subject`. -/
def isSubjectStream (input : List Nat) : Prop :=
  ∃ s rest, Subject.validRLP s ∧ input = subjectBytes s ++ rest

/-- The stream `input` begins with the wire record of some wire-valid
`Preprepare`. -/
def isPreprepareStream (input : List Nat) : Prop :=
  ∃ (p : Preprepare) (f : Nat) (rest : List Nat),
    0 ≤ p.view.round ∧ 0 ≤ p.view.sequence ∧
      wfbF f (preprepareItem p) = true ∧ input = preprepareBytesF f p ++ rest

/-! ## Theorems -/

/-- On an ascending list, the resolver's stop-at-first-too-high prefix scan
visits exactly the transitions with height at most `n`. -/
theorem takeWhile_eq_filter_of_ascending (ts : List Transition) (n : Int)
    (hasc : ascendingByHeight ts) :
    ts.takeWhile (fun t => t.block ≤ n) = ts.filter (fun t => t.block ≤ n) := by
  induction ts with
  | nil => rfl
  | cons t ts ih =>
    rcases List.pairwise_cons.mp hasc with ⟨hall, htail⟩
    by_cases hp : t.block ≤ n
    · simp [List.takeWhile_cons, List.filter_cons, hp, ih htail]
    · have hnil : ts.filter (fun t => decide (t.block ≤ n)) = [] := by
        rw [List.filter_eq_nil_iff]
        intro x hx
        simp only [decide_eq_true_eq]
        intro hxle
        exact hp (le_trans (hall x hx) hxle)
      simp [List.takeWhile_cons, List.filter_cons, hp, hnil]

/-- C1: `GetConfig(h)` is the left-to-right fold of the applicable-transition
overrides, starting from the base config: on an ascending transition list
the loop visits exactly the transitions of height at most `h`, in list
order, and each visit overwrites a field only when that field is
explicitly present in the transition (non-zero
`EpochLength`/`BlockPeriodSeconds`, non-nil `EmptyBlockPeriodSeconds`/`Ben
eficiaryMode`/`BlockReward`/`MiningBeneficiary`/`MaxRequestTimeoutSeconds`
, non-empty `ValidatorSelectionMode`/`Validators`); an absent field
inherits the previously folded value, so a later transition wins per field
and never replaces the whole record. -/
theorem getConfig_is_per_field_fold (c : Config) (h : Int) (cfg : Config)
    (t : Transition) (hasc : ascendingByHeight c.transitions) :
    c.getConfig (some h) =
        (c.transitions.filter (fun t => t.block ≤ h)).foldl applyTransitionOverrides c
      ∧ (applyTransitionOverrides cfg t).epoch =
          (if t.epochLength = 0 then cfg.epoch else t.epochLength)
      ∧ (applyTransitionOverrides cfg t).blockPeriod =
          (if t.blockPeriodSeconds = 0 then cfg.blockPeriod else t.blockPeriodSeconds)
      ∧ (applyTransitionOverrides cfg t).emptyBlockPeriod =
          t.emptyBlockPeriodSeconds.getD cfg.emptyBlockPeriod
      ∧ (applyTransitionOverrides cfg t).beneficiaryMode =
          t.beneficiaryMode.or cfg.beneficiaryMode
      ∧ (applyTransitionOverrides cfg t).blockReward =
          t.blockReward.or cfg.blockReward
      ∧ (applyTransitionOverrides cfg t).miningBeneficiary =
          t.miningBeneficiary.or cfg.miningBeneficiary
      ∧ (applyTransitionOverrides cfg t).validatorSelectionMode =
          (if t.validatorSelectionMode = "" then cfg.validatorSelectionMode
           else some t.validatorSelectionMode)
      ∧ (applyTransitionOverrides cfg t).validators =
          (if t.validators = [] then cfg.validators else t.validators)
      ∧ (applyTransitionOverrides cfg t).maxRequestTimeoutSeconds =
          t.maxRequestTimeoutSeconds.getD cfg.maxRequestTimeoutSeconds := by
  refine ⟨?_, ?_, ?_, ?_, ?_, ?_, ?_, ?_, ?_, ?_⟩
  · show (c.transitions.takeWhile (fun t => t.block ≤ h)).foldl applyTransitionOverrides c = _
    rw [takeWhile_eq_filter_of_ascending c.transitions h hasc]
  · by_cases he : t.epochLength = 0 <;> simp [applyTransitionOverrides, he]
  · by_cases hb : t.blockPeriodSeconds = 0 <;> simp [applyTransitionOverrides, hb]
  · cases he : t.emptyBlockPeriodSeconds <;> simp [applyTransitionOverrides, he]
  · cases hb : t.beneficiaryMode <;> simp [applyTransitionOverrides, hb]
  · cases hb : t.blockReward <;> simp [applyTransitionOverrides, hb]
  · cases hm : t.miningBeneficiary <;> simp [applyTransitionOverrides, hm]
  · by_cases hv : t.validatorSelectionMode = "" <;> simp [applyTransitionOverrides, hv]
  · cases hv : t.validators <;> simp [applyTransitionOverrides, hv]
  · cases hm : t.maxRequestTimeoutSeconds <;> simp [applyTransitionOverrides, hm]

/-- Witness for C1 at a concrete ascending config. -/
theorem getConfig_is_per_field_fold_witness :
    foldSample.getConfig (some 9) =
        (foldSample.transitions.filter (fun t => t.block ≤ 9)).foldl
          applyTransitionOverrides foldSample
      ∧ (applyTransitionOverrides foldSample fullTransition).epoch =
          (if fullTransition.epochLength = 0 then foldSample.epoch
           else fullTransition.epochLength)
      ∧ (applyTransitionOverrides foldSample fullTransition).blockPeriod =
          (if fullTransition.blockPeriodSeconds = 0 then foldSample.blockPeriod
           else fullTransition.blockPeriodSeconds)
      ∧ (applyTransitionOverrides foldSample fullTransition).emptyBlockPeriod =
          fullTransition.emptyBlockPeriodSeconds.getD foldSample.emptyBlockPeriod
      ∧ (applyTransitionOverrides foldSample fullTransition).beneficiaryMode =
          fullTransition.beneficiaryMode.or foldSample.beneficiaryMode
      ∧ (applyTransitionOverrides foldSample fullTransition).blockReward =
          fullTransition.blockReward.or foldSample.blockReward
      ∧ (applyTransitionOverrides foldSample fullTransition).miningBeneficiary =
          fullTransition.miningBeneficiary.or foldSample.miningBeneficiary
      ∧ (applyTransitionOverrides foldSample fullTransition).validatorSelectionMode =
          (if fullTransition.validatorSelectionMode = "" then
            foldSample.validatorSelectionMode
           else some fullTransition.validatorSelectionMode)
      ∧ (applyTransitionOverrides foldSample fullTransition).validators =
          (if fullTransition.validators = [] then foldSample.validators
           else fullTransition.validators)
      ∧ (applyTransitionOverrides foldSample fullTransition).maxRequestTimeoutSeconds =
          fullTransition.maxRequestTimeoutSeconds.getD
            foldSample.maxRequestTimeoutSeconds :=
  getConfig_is_per_field_fold foldSample 9 foldSample fullTransition (by decide)

/-- C3: a transition's `RequestTimeoutSeconds` (seconds) resolves into the
milliseconds `RequestTimeout` field by a `uint64` multiplication by 1000
whenever it is non-zero, and the scenario `{RequestTimeout:10000,
Epoch:30000}` + `{Block:100, RequestTimeoutSeconds:5}` resolves to 10000
at height 50 and to 5000 at heights 100 and 1000. -/
theorem getConfig_requestTimeout_is_seconds_times_1000 (cfg : Config)
    (t : Transition) (hne : t.requestTimeoutSeconds ≠ 0)
    (hnof : t.requestTimeoutSeconds * 1000 < UINT64_MOD) :
    (applyTransitionOverrides cfg t).requestTimeout =
        t.requestTimeoutSeconds * 1000
      ∧ (requestTimeoutScenario.getConfig (some 50)).requestTimeout = 10000
      ∧ (requestTimeoutScenario.getConfig (some 100)).requestTimeout = 5000
      ∧ (requestTimeoutScenario.getConfig (some 1000)).requestTimeout = 5000 := by
  refine ⟨?_, by decide, by decide, by decide⟩
  simp [applyTransitionOverrides, hne, Nat.mod_eq_of_lt hnof]

/-- Witness for C3 at the scenario transition. -/
theorem getConfig_requestTimeout_is_seconds_times_1000_witness :
    (applyTransitionOverrides requestTimeoutScenario
          { block := 100, requestTimeoutSeconds := 5 }).requestTimeout =
        5 * 1000
      ∧ (requestTimeoutScenario.getConfig (some 50)).requestTimeout = 10000
      ∧ (requestTimeoutScenario.getConfig (some 100)).requestTimeout = 5000
      ∧ (requestTimeoutScenario.getConfig (some 1000)).requestTimeout = 5000 :=
  getConfig_requestTimeout_is_seconds_times_1000 requestTimeoutScenario
    { block := 100, requestTimeoutSeconds := 5 } (by decide) (by decide)

/-- Folding a last-writer-wins optional flag override equals the last present
override, or the initial value when none is present. -/
theorem foldl_flag_eq_getLast (l : List Transition) (init : Bool) :
    l.foldl (fun acc transition =>
        match transition.twoFPlusOneEnabled with
        | some b => b
        | none => acc) init =
      ((l.filterMap (fun t => t.twoFPlusOneEnabled)).getLast?).getD init := by
  induction l generalizing init with
  | nil => rfl
  | cons t ts ih =>
    cases hf : t.twoFPlusOneEnabled with
    | none => simp [List.foldl_cons, hf, ih, List.filterMap_cons]
    | some b =>
      simp [List.foldl_cons, hf, ih, List.filterMap_cons, List.getLast?_cons]

/-- C4: on an ascending transition list, `Get2FPlus1Enabled(h)` returns the
`TwoFPlusOneEnabled` value of the last transition of height at most `h`
whose flag is non-nil, and `false` when no such transition exists (nil
height, or an empty transition list, included); the resolver is total and
never errors. -/
theorem get2FPlus1Enabled_is_last_explicit_flag (c : Config) (h : Int)
    (hasc : ascendingByHeight c.transitions) :
    c.get2FPlus1Enabled (some h) = (lastExplicitTwoFPlusOne c.transitions h).getD false
      ∧ c.get2FPlus1Enabled none = false
      ∧ ({ c with transitions := [] } : Config).get2FPlus1Enabled (some h) = false := by
  refine ⟨?_, rfl, rfl⟩
  show (c.transitions.takeWhile (fun t => t.block ≤ h)).foldl _ false = _
  rw [takeWhile_eq_filter_of_ascending c.transitions h hasc]
  exact foldl_flag_eq_getLast _ false

/-- Witness for C4 at a concrete ascending config: at height 10 the last
explicit flag (at height 9) wins. -/
theorem get2FPlus1Enabled_is_last_explicit_flag_witness :
    twoFSample.get2FPlus1Enabled (some 10) =
        (lastExplicitTwoFPlusOne twoFSample.transitions 10).getD false
      ∧ twoFSample.get2FPlus1Enabled none = false
      ∧ ({ twoFSample with transitions := [] } : Config).get2FPlus1Enabled (some 10) =
          false :=
  get2FPlus1Enabled_is_last_explicit_flag twoFSample 10 (by decide)

/-- C2 as stated is false: it says that at height 0 with an empty base
validator list the result is the empty list ("in every other case it
returns an empty address list"), but with a first transition whose `Block`
is 0 the code returns that transition's validators. -/
theorem getValidatorsAt_claim_counterexample :
    zeroHeightTransitionConfig.getValidatorsAt (some 0) = some [1]
      ∧ some [1] ≠ some ([] : List Address) := by decide

/-- C2 amended: `GetValidatorsAt(h)` returns the base list when `h = 0` and it
is non-empty; in every other case - `h = 0` with an empty base list
included - it inspects only the first transition record and returns that
record's validator list iff that record's `Block` equals `h`, and the
empty list otherwise.  In particular the `[{Block:10},{Block:20}]`
scenario queried at 20 yields the empty list, not `[B]`. -/
theorem getValidatorsAt_first_entry_only (c : Config) (h : Int) :
    c.getValidatorsAt (some h) = some (
        if h = 0 ∧ c.validators ≠ [] then c.validators
        else
          match c.transitions with
          | [] => []
          | t :: _ => if t.block = h then t.validators else [])
      ∧ twoTransitionValidators.getValidatorsAt (some 20) = some [] := by
  refine ⟨?_, by decide⟩
  show (if h = 0 ∧ c.validators.length > 0 then some c.validators
        else
          match c.transitions with
          | [] => some []
          | t :: _ => if t.block = h then some t.validators else some []) = _
  by_cases h0 : h = 0 ∧ c.validators ≠ []
  · rw [if_pos (show h = 0 ∧ c.validators.length > 0 from
        ⟨h0.1, List.length_pos.mpr h0.2⟩), if_pos h0]
  · rw [if_neg (show ¬(h = 0 ∧ c.validators.length > 0) from
        fun hc => h0 ⟨hc.1, List.length_pos.mp hc.2⟩), if_neg h0]
    cases c.transitions with
    | nil => rfl
    | cons t ts =>
      show (if t.block = h then some t.validators else some []) =
        some (if t.block = h then t.validators else [])
      by_cases hb : t.block = h
      · rw [if_pos hb, if_pos hb]
      · rw [if_neg hb, if_neg hb]

/-- C10: `GetValidatorsAt` evaluates `blockNumber.Cmp(big.NewInt(0))` before
its nil test, so it is not total over nil heights (the nil dereference is
modelled as `none`), while `GetConfig`, `GetValidatorSelectionMode` and
`Get2FPlus1Enabled` guard nil inside `getTransitionValue` and fall back to
the base / default values. -/
theorem getValidatorsAt_not_total_on_nil (c : Config) :
    c.getValidatorsAt none = none
      ∧ c.getConfig none = c
      ∧ c.getValidatorSelectionMode none =
          (match c.validatorSelectionMode with
           | some m => m
           | none => BlockHeaderMode)
      ∧ c.get2FPlus1Enabled none = false :=
  ⟨rfl, rfl, rfl, rfl⟩

theorem bigCmp_neg_iff (x y : Int) : bigCmp x y < 0 ↔ x < y := by
  unfold bigCmp; split_ifs <;> omega

theorem bigCmp_eq_zero_iff (x y : Int) : bigCmp x y = 0 ↔ x = y := by
  unfold bigCmp
  split_ifs with h1 h2 <;>
    first
      | exact iff_of_true (by simp) (by omega)
      | exact iff_of_false (by simp) (by omega)

theorem bigCmp_pos_iff (x y : Int) : 0 < bigCmp x y ↔ y < x := by
  unfold bigCmp
  split_ifs with h1 h2 <;>
    first
      | exact iff_of_true (by simp) (by omega)
      | exact iff_of_false (by simp) (by omega)

/-- Rewriting `View.Cmp` in closed form: sequence is the primary key, round
the secondary one. -/
theorem View.cmp_eq (v y : View) :
    v.cmp y =
      if v.sequence = y.sequence then bigCmp v.round y.round
      else bigCmp v.sequence y.sequence := by
  unfold View.cmp
  by_cases hs : v.sequence = y.sequence
  · have h0 : bigCmp v.sequence y.sequence = 0 := (bigCmp_eq_zero_iff _ _).mpr hs
    rw [if_pos hs, h0]
    split_ifs <;> omega
  · have h0 : bigCmp v.sequence y.sequence ≠ 0 :=
      fun hc => hs ((bigCmp_eq_zero_iff _ _).mp hc)
    rw [if_neg hs, if_pos h0]

/-- C7: `View.Cmp` is a strict total order with sequence as primary and round
as secondary ascending key: negative iff lexicographically less, zero iff
equal componentwise, positive iff lexicographically greater; reflexively
zero, antisymmetric in sign, and transitive. -/
theorem View.cmp_strict_total_order (v y z : View) :
    (v.cmp y < 0 ↔
        (v.sequence < y.sequence ∨ (v.sequence = y.sequence ∧ v.round < y.round)))
      ∧ (v.cmp y = 0 ↔ (v.sequence = y.sequence ∧ v.round = y.round))
      ∧ (0 < v.cmp y ↔
        (y.sequence < v.sequence ∨ (y.sequence = v.sequence ∧ y.round < v.round)))
      ∧ v.cmp v = 0
      ∧ v.cmp y = -(y.cmp v)
      ∧ (v.cmp y < 0 → y.cmp z < 0 → v.cmp z < 0) := by
  refine ⟨?_, ?_, ?_, ?_, ?_, ?_⟩
  · rw [View.cmp_eq]
    by_cases hs : v.sequence = y.sequence <;> simp [hs, bigCmp_neg_iff]
  · rw [View.cmp_eq]
    by_cases hs : v.sequence = y.sequence <;> simp [hs, bigCmp_eq_zero_iff]
  · rw [View.cmp_eq]
    by_cases hs : v.sequence = y.sequence <;> simp [hs, bigCmp_pos_iff]
    omega
  · simp [View.cmp_eq, bigCmp]
  · simp only [View.cmp_eq, bigCmp]
    split_ifs <;> omega
  · simp only [View.cmp_eq, bigCmp]
    split_ifs <;> intros <;> omega

/-- Witness for C7: transitivity applied at concrete views (round, sequence) =
(1,0) < (2,0) < (0,1). -/
theorem View.cmp_strict_total_order_witness :
    (⟨1, 0⟩ : View).cmp ⟨2, 0⟩ < 0
      ∧ (⟨2, 0⟩ : View).cmp ⟨0, 1⟩ < 0
      ∧ (⟨1, 0⟩ : View).cmp ⟨0, 1⟩ < 0 :=
  ⟨by decide, by decide,
    (View.cmp_strict_total_order ⟨1, 0⟩ ⟨2, 0⟩ ⟨0, 1⟩).2.2.2.2.2
      (by decide) (by decide)⟩

theorem mem_orderedInsert (le : ValidatorSortByFunc) (a x : Validator)
    (l : List Validator) :
    x ∈ orderedInsert le a l ↔ x = a ∨ x ∈ l := by
  induction l with
  | nil => simp [orderedInsert]
  | cons b l ih =>
    by_cases hab : le a b
    · simp [orderedInsert, hab]
    · simp [orderedInsert, hab, ih]
      tauto

theorem pairwise_orderedInsert (le : ValidatorSortByFunc)
    (htot : ∀ a b, le a b = true ∨ le b a = true)
    (htrans : ∀ a b c, le a b = true → le b c = true → le a c = true)
    (a : Validator) (l : List Validator)
    (hl : l.Pairwise (fun x y => le x y = true)) :
    (orderedInsert le a l).Pairwise (fun x y => le x y = true) := by
  induction l with
  | nil => simp [orderedInsert]
  | cons b l ih =>
    rcases List.pairwise_cons.mp hl with ⟨hb, hl'⟩
    by_cases hab : le a b
    · rw [orderedInsert, if_pos hab]
      refine List.pairwise_cons.mpr ⟨?_, hl⟩
      intro x hx
      rcases List.mem_cons.mp hx with rfl | hx
      · exact hab
      · exact htrans a b x hab (hb x hx)
    · rw [orderedInsert, if_neg hab]
      refine List.pairwise_cons.mpr ⟨?_, ih hl'⟩
      intro x hx
      rcases (mem_orderedInsert le a x l).mp hx with rfl | hx
      · rcases htot x b with h | h
        · exact absurd h hab
        · exact h
      · exact hb x hx

theorem pairwise_sortValidators (le : ValidatorSortByFunc)
    (htot : ∀ a b, le a b = true ∨ le b a = true)
    (htrans : ∀ a b c, le a b = true → le b c = true → le a c = true)
    (vs : List Validator) :
    (sortValidators le vs).Pairwise (fun x y => le x y = true) := by
  induction vs with
  | nil => simp [sortValidators]
  | cons v vs ih => exact pairwise_orderedInsert le htot htrans v _ ih

/-- C5: after `Use(f)` returns, the policy's sort function is `f` and the re-
sort pass has covered the entire registry: every tracked set has been
replaced by its `SortValidators` result under `f`, so (for a total
transitive comparison) no registered set is left unsorted under the new
function. -/
theorem use_resorts_every_registered_set (p : ProposerPolicy)
    (f : ValidatorSortByFunc)
    (htot : ∀ a b, f a b = true ∨ f b a = true)
    (htrans : ∀ a b c, f a b = true → f b c = true → f a c = true) :
    (p.use f).By = f
      ∧ (p.use f).registry = p.registry.map (sortValidators f)
      ∧ ∀ s ∈ (p.use f).registry, s.Pairwise (fun x y => f x y = true) := by
  refine ⟨rfl, rfl, ?_⟩
  intro s hs
  rcases List.mem_map.mp hs with ⟨t, _, rfl⟩
  exact pairwise_sortValidators f htot htrans t

theorem leByAddress_total (a b : Validator) :
    leByAddress a b = true ∨ leByAddress b a = true := by
  rcases Nat.le_total a b with h | h
  · exact Or.inl (by simp [leByAddress, h])
  · exact Or.inr (by simp [leByAddress, h])

theorem leByAddress_trans (a b c : Validator) (hab : leByAddress a b = true)
    (hbc : leByAddress b c = true) : leByAddress a c = true := by
  simp only [leByAddress, decide_eq_true_eq] at hab hbc ⊢
  exact le_trans hab hbc

/-- Witness for C5: a two-set registry re-sorted under the address order. -/
theorem use_resorts_every_registered_set_witness :
    (ProposerPolicy.use ⟨.roundRobin, fun _ _ => true, [[3, 1], [2, 5, 4]]⟩
          leByAddress).By = leByAddress
      ∧ (ProposerPolicy.use ⟨.roundRobin, fun _ _ => true, [[3, 1], [2, 5, 4]]⟩
          leByAddress).registry =
          [[3, 1], [2, 5, 4]].map (sortValidators leByAddress)
      ∧ ∀ s ∈ (ProposerPolicy.use ⟨.roundRobin, fun _ _ => true,
            [[3, 1], [2, 5, 4]]⟩ leByAddress).registry,
          s.Pairwise (fun x y => leByAddress x y = true) :=
  use_resorts_every_registered_set _ leByAddress leByAddress_total leByAddress_trans

/-- C6 as stated is false: `Use`'s re-sort pass acquires no lock.  At the
concrete one-set registry, `RegisterValidatorSet` and `ClearRegistry` hold
`registryMU` for their duration but the `Use` trace does not. -/
theorem use_resort_runs_unlocked_counterexample :
    ¬(holdsLockForDuration registerValidatorSetTrace = true
        ∧ holdsLockForDuration clearRegistryTrace = true
        ∧ holdsLockForDuration (useTrace 1) = true) := by decide

/-- C6 amended: `RegisterValidatorSet` and `ClearRegistry` acquire
`registryMU` and hold it for the duration of their registry update, but
the re-sort pass inside `Use` performs no mutex operation at all: it
writes the sort function, reads the registry and re-sorts every set
without ever acquiring `registryMU`. -/
theorem registry_lock_discipline (n : Nat) :
    holdsLockForDuration registerValidatorSetTrace = true
      ∧ holdsLockForDuration clearRegistryTrace = true
      ∧ RegistryEvent.lock ∉ useTrace n
      ∧ RegistryEvent.unlock ∉ useTrace n := by
  refine ⟨by decide, by decide, ?_, ?_⟩ <;>
    simp [useTrace, List.mem_map]

theorem beBytesAux_stable (f1 : Nat) : ∀ f2 n, n ≤ f1 → n ≤ f2 →
    beBytesAux f1 n = beBytesAux f2 n := by
  induction f1 with
  | zero =>
    intro f2 n h1 _
    interval_cases n
    cases f2 <;> rfl
  | succ f1 ih =>
    intro f2 n h1 h2
    match n, f2 with
    | 0, f2 => cases f2 <;> rfl
    | m + 1, f2 + 1 =>
      show beBytesAux f1 ((m + 1) / 256) ++ _ = beBytesAux f2 ((m + 1) / 256) ++ _
      have hq : (m + 1) / 256 ≤ m := Nat.lt_succ_iff.mp (Nat.div_lt_self (Nat.succ_pos m) (by omega))
      rw [ih f2 ((m + 1) / 256) (by omega) (by omega)]

/-- The recursive unfolding of `beBytes`. -/
theorem beBytes_eq (n : Nat) :
    beBytes n = if n = 0 then [] else beBytes (n / 256) ++ [n % 256] := by
  match n with
  | 0 => rfl
  | m + 1 =>
    have hq : (m + 1) / 256 ≤ m := Nat.lt_succ_iff.mp (Nat.div_lt_self (Nat.succ_pos m) (by omega))
    show beBytesAux m ((m + 1) / 256) ++ _ = _
    rw [if_neg (Nat.succ_ne_zero m),
      show beBytes ((m + 1) / 256) = beBytesAux ((m + 1) / 256) ((m + 1) / 256) from rfl,
      beBytesAux_stable m ((m + 1) / 256) ((m + 1) / 256) hq le_rfl]

theorem beBytesAux_all_lt (fuel : Nat) : ∀ m, ∀ b ∈ beBytesAux fuel m, b < 256 := by
  induction fuel with
  | zero =>
    intro m b hb
    cases m <;> simp [beBytesAux] at hb
  | succ fuel ih =>
    intro m b hb
    cases m with
    | zero => simp [beBytesAux] at hb
    | succ k =>
      rw [show beBytesAux (fuel + 1) (k + 1) =
          beBytesAux fuel ((k + 1) / 256) ++ [(k + 1) % 256] from rfl] at hb
      rcases List.mem_append.mp hb with hb | hb
      · exact ih _ b hb
      · simp only [List.mem_singleton] at hb
        subst hb
        exact Nat.mod_lt _ (by omega)

theorem beBytes_all_lt (n : Nat) : ∀ b ∈ beBytes n, b < 256 :=
  beBytesAux_all_lt n n

theorem fromBE_append_singleton (bs : List Nat) (b : Nat) :
    fromBE (bs ++ [b]) = fromBE bs * 256 + b := by
  unfold fromBE
  rw [List.foldl_append]
  rfl

theorem fromBE_beBytes (n : Nat) : fromBE (beBytes n) = n := by
  induction n using Nat.strong_induction_on with
  | _ n ih =>
    rw [beBytes_eq]
    match n with
    | 0 => rfl
    | m + 1 =>
      rw [if_neg (Nat.succ_ne_zero m), fromBE_append_singleton,
        ih ((m + 1) / 256) (Nat.div_lt_self (Nat.succ_pos m) (by omega))]
      omega

theorem beBytes_ne_nil (n : Nat) (hn : n ≠ 0) : beBytes n ≠ [] := by
  rw [beBytes_eq, if_neg hn]
  simp

theorem beBytes_head_ne_zero (n : Nat) (hn : n ≠ 0) :
    (beBytes n).head? ≠ some 0 := by
  induction n using Nat.strong_induction_on with
  | _ n ih =>
    rw [beBytes_eq, if_neg hn]
    by_cases hq : n / 256 = 0
    · rw [hq]
      show ([] ++ [n % 256]).head? ≠ some 0
      have hlt : n < 256 := by omega
      have : n % 256 = n := Nat.mod_eq_of_lt hlt
      simp [this, hn]
    · have hne := beBytes_ne_nil (n / 256) hq
      rw [List.head?_append_of_ne_nil _ hne]
      exact ih (n / 256) (Nat.div_lt_self (Nat.pos_of_ne_zero hn) (by omega)) hq

theorem beBytes_length_le (k : Nat) : ∀ n, n < 256 ^ k → (beBytes n).length ≤ k := by
  induction k with
  | zero =>
    intro n hn
    interval_cases n
    simp [beBytes, beBytesAux]
  | succ k ih =>
    intro n hn
    rw [beBytes_eq]
    by_cases h0 : n = 0
    · simp [h0]
    · rw [if_neg h0, List.length_append]
      have : n / 256 < 256 ^ k := by
        rw [Nat.div_lt_iff_lt_mul (by omega)]
        calc n < 256 ^ (k + 1) := hn
        _ = 256 ^ k * 256 := by ring
      have := ih (n / 256) this
      simp only [List.length_singleton]
      omega

theorem fromBE_cons_aux (bs : List Nat) : ∀ init : Nat,
    bs.foldl (fun acc b => acc * 256 + b) init = init * 256 ^ bs.length + fromBE bs := by
  induction bs with
  | nil => intro init; simp [fromBE]
  | cons b bs ih =>
    intro init
    show bs.foldl _ (init * 256 + b) = _
    rw [ih (init * 256 + b),
      show fromBE (b :: bs) = bs.foldl (fun acc b => acc * 256 + b) (0 * 256 + b) from rfl,
      ih (0 * 256 + b), List.length_cons, pow_succ]
    ring

theorem fromBE_cons (b : Nat) (bs : List Nat) :
    fromBE (b :: bs) = b * 256 ^ bs.length + fromBE bs := by
  show bs.foldl _ (0 * 256 + b) = _
  rw [fromBE_cons_aux bs (0 * 256 + b)]
  ring_nf

theorem fromBE_lt (bs : List Nat) (hwf : ∀ b ∈ bs, b < 256) :
    fromBE bs < 256 ^ bs.length := by
  induction bs with
  | nil => simp [fromBE]
  | cons b bs ih =>
    rw [fromBE_cons, List.length_cons, pow_succ]
    have hb : b < 256 := hwf b (by simp)
    have hrest : fromBE bs < 256 ^ bs.length := ih (fun x hx => hwf x (by simp [hx]))
    calc b * 256 ^ bs.length + fromBE bs
        ≤ 255 * 256 ^ bs.length + fromBE bs := by
          have : b ≤ 255 := by omega
          nlinarith [pow_pos (show (0:Nat) < 256 by omega) bs.length]
      _ < 255 * 256 ^ bs.length + 256 ^ bs.length := by omega
      _ = 256 ^ bs.length * 256 := by ring

/-- A canonical big-endian string (no leading zero, all bytes) is recovered by
`beBytes` from its value. -/
theorem beBytes_fromBE (bs : List Nat) (hwf : ∀ b ∈ bs, b < 256)
    (hcanon : bs.head? ≠ some 0) : beBytes (fromBE bs) = bs := by
  induction bs using List.reverseRecOn with
  | nil => rfl
  | append_singleton bs b ih =>
    rw [fromBE_append_singleton]
    have hb : b < 256 := hwf b (by simp)
    cases bs with
    | nil =>
      have hb0 : b ≠ 0 := by
        intro h
        exact hcanon (by simp [h])
      rw [show fromBE [] = 0 from rfl, beBytes_eq, if_neg (by omega)]
      have hdiv : (0 * 256 + b) / 256 = 0 := by omega
      have hmod : (0 * 256 + b) % 256 = b := by omega
      rw [hdiv, hmod]
      rfl
    | cons c cs =>
      have hc : c ≠ 0 := by simpa using hcanon
      have hhead : (c :: cs).head? ≠ some 0 := by simpa using hc
      have hwf' : ∀ x ∈ c :: cs, x < 256 := fun x hx => hwf x (by
        simp only [List.mem_cons, List.mem_append, List.mem_singleton] at hx ⊢
        tauto)
      have hpos : 0 < fromBE (c :: cs) := by
        rw [fromBE_cons]
        have h1 : 0 < 256 ^ cs.length := pow_pos (by omega) cs.length
        have h2 : 1 * 256 ^ cs.length ≤ c * 256 ^ cs.length :=
          Nat.mul_le_mul_right _ (by omega)
        omega
      rw [beBytes_eq, if_neg (by omega)]
      have hdiv : (fromBE (c :: cs) * 256 + b) / 256 = fromBE (c :: cs) := by omega
      have hmod : (fromBE (c :: cs) * 256 + b) % 256 = b := by omega
      rw [hdiv, hmod, ih hwf' hhead]

theorem encodeItemsF_nil (fuel : Nat) : encodeItemsF fuel [] = [] := rfl

theorem encodeItemsF_cons (fuel : Nat) (it : RlpItem) (items : List RlpItem) :
    encodeItemsF fuel (it :: items) = encodeItemF fuel it ++ encodeItemsF fuel items := by
  simp [encodeItemsF]

theorem encodeItemF_str_succ (fuel : Nat) (bs : List Nat) :
    encodeItemF (fuel + 1) (.str bs) = encodeItemF 1 (.str bs) := rfl

theorem encodeItemF_list_succ (fuel : Nat) (items : List RlpItem) :
    encodeItemF (fuel + 1) (.list items) =
      encodeLength (encodeItemsF fuel items).length 0xc0 ++ encodeItemsF fuel items := rfl

/-- Raising the fuel preserves both well-formedness and the encoding. -/
theorem wfbF_succ_stable (fuel : Nat) : ∀ it, wfbF fuel it = true →
    wfbF (fuel + 1) it = true ∧ encodeItemF (fuel + 1) it = encodeItemF fuel it := by
  induction fuel with
  | zero => intro it h; simp [wfbF] at h
  | succ fuel ih =>
    intro it h
    match it with
    | .str bs => exact ⟨h, rfl⟩
    | .list items =>
      rw [wfbF, Bool.and_eq_true, List.all_eq_true] at h
      obtain ⟨hall, hsize⟩ := h
      have hmap : items.map (encodeItemF (fuel + 1)) = items.map (encodeItemF fuel) :=
        List.map_congr_left (fun x hx => (ih x (hall x hx)).2)
      have hpayload : encodeItemsF (fuel + 1) items = encodeItemsF fuel items := by
        unfold encodeItemsF
        rw [hmap]
      constructor
      · rw [wfbF, Bool.and_eq_true, List.all_eq_true]
        exact ⟨fun x hx => (ih x (hall x hx)).1, by rw [hpayload]; exact hsize⟩
      · rw [encodeItemF_list_succ, encodeItemF_list_succ, hpayload]

theorem wfbF_mono (f g : Nat) (it : RlpItem) (hle : f ≤ g)
    (h : wfbF f it = true) : wfbF g it = true := by
  induction g with
  | zero =>
    have : f = 0 := by omega
    subst this
    exact h
  | succ g ih =>
    rcases Nat.lt_or_ge f (g + 1) with hlt | hge
    · exact (wfbF_succ_stable g it (ih (by omega))).1
    · have : f = g + 1 := by omega
      subst this
      exact h

theorem encodeItemF_stable (f g : Nat) (it : RlpItem) (hle : f ≤ g)
    (h : wfbF f it = true) : encodeItemF g it = encodeItemF f it := by
  induction g with
  | zero =>
    have : f = 0 := by omega
    subst this
    rfl
  | succ g ih =>
    rcases Nat.lt_or_ge f (g + 1) with hlt | hge
    · rw [(wfbF_succ_stable g it (wfbF_mono f g it (by omega) h)).2]
      exact ih (by omega)
    · have : f = g + 1 := by omega
      subst this
      rfl

theorem encodeLength_length_pos (len offset : Nat) :
    0 < (encodeLength len offset).length := by
  unfold encodeLength
  split_ifs <;> simp

theorem fromBE_singleton (b : Nat) : fromBE [b] = b := by
  simp [fromBE]

theorem pow_256_8 : 256 ^ 8 = 2 ^ 64 := by norm_num

theorem encodeItemF_length_pos (fuel : Nat) (it : RlpItem)
    (h : wfbF fuel it = true) : 0 < (encodeItemF fuel it).length := by
  match fuel, it with
  | 0, it => simp [wfbF] at h
  | fuel + 1, .str bs =>
    show 0 < (encodeItemF (fuel + 1) (.str bs)).length
    rw [encodeItemF_str_succ]
    match bs with
    | [] => simp [encodeItemF, encodeLength]
    | [b] =>
      by_cases hb : b < 0x80 <;>
        simp [encodeItemF, encodeLength, hb]
    | b1 :: b2 :: tl =>
      have h1 := encodeLength_length_pos (b1 :: b2 :: tl).length 0x80
      show 0 < (encodeLength (b1 :: b2 :: tl).length 0x80 ++ (b1 :: b2 :: tl)).length
      rw [List.length_append]
      omega
  | fuel + 1, .list items =>
    rw [encodeItemF_list_succ, List.length_append]
    have := encodeLength_length_pos (encodeItemsF fuel items).length 0xc0
    omega

theorem all_wfbF_mono (f g : Nat) (items : List RlpItem) (hle : f ≤ g)
    (h : items.all (wfbF f) = true) : items.all (wfbF g) = true := by
  rw [List.all_eq_true] at h ⊢
  exact fun x hx => wfbF_mono f g x hle (h x hx)

theorem encodeItemsF_stable (f g : Nat) (items : List RlpItem) (hle : f ≤ g)
    (h : items.all (wfbF f) = true) : encodeItemsF g items = encodeItemsF f items := by
  rw [List.all_eq_true] at h
  unfold encodeItemsF
  rw [List.map_congr_left (fun x hx => encodeItemF_stable f g x hle (h x hx))]

/-- Soundness of the decoder: the encoding of a well-formed value, followed by
any trailing stream, decodes back to the value and the trailing stream
(mode `true`), and an encoded sequence decodes back to the sequence (mode
`false`). -/
theorem rlpRun_sound (dfuel : Nat) :
    (∀ ef it rest, wfbF ef it = true →
      2 * (encodeItemF ef it).length ≤ dfuel →
      rlpRun dfuel true (encodeItemF ef it ++ rest) = some ([it], rest))
    ∧ (∀ ef items, items.all (wfbF ef) = true →
      2 * (encodeItemsF ef items).length + 1 ≤ dfuel →
      rlpRun dfuel false (encodeItemsF ef items) = some (items, [])) := by
  induction dfuel using Nat.strong_induction_on with
  | _ dfuel ih =>
    constructor
    · intro ef it rest hwf hfl
      match dfuel, ef, it with
      | dfuel, 0, it => simp [wfbF] at hwf
      | 0, ef + 1, it =>
        have := encodeItemF_length_pos (ef + 1) it hwf
        omega
      | dfuel + 1, ef + 1, .str bs =>
        rw [wfbF, Bool.and_eq_true, List.all_eq_true, decide_eq_true_eq] at hwf
        obtain ⟨hbytes, hsize⟩ := hwf
        rw [encodeItemF_str_succ] at hfl ⊢
        match bs with
        | [] =>
          show rlpRun (dfuel + 1) true (0x80 :: rest) = some ([.str []], rest)
          simp [rlpRun]
        | [b] =>
          by_cases hb : b < 0x80
          · show rlpRun (dfuel + 1) true
              ((if b < 0x80 then [b] else encodeLength 1 0x80 ++ [b]) ++ rest) =
              some ([.str [b]], rest)
            rw [if_pos hb]
            show rlpRun (dfuel + 1) true (b :: rest) = some ([.str [b]], rest)
            simp [rlpRun, hb]
          · show rlpRun (dfuel + 1) true
              ((if b < 0x80 then [b] else encodeLength 1 0x80 ++ [b]) ++ rest) =
              some ([.str [b]], rest)
            rw [if_neg hb]
            show rlpRun (dfuel + 1) true (0x81 :: b :: rest) = some ([.str [b]], rest)
            simp only [rlpRun]
            rw [if_neg (by omega), if_pos (by omega)]
            simp only [List.length_cons, List.take_succ_cons, List.take_zero,
              List.drop_succ_cons, List.drop_zero]
            rw [if_neg (by omega), if_neg (by rw [fromBE_singleton]; omega)]
        | b1 :: b2 :: tl =>
          show rlpRun (dfuel + 1) true
            ((encodeLength (b1 :: b2 :: tl).length 0x80 ++ (b1 :: b2 :: tl)) ++ rest) =
            some ([.str (b1 :: b2 :: tl)], rest)
          set bs := b1 :: b2 :: tl with hbs
          by_cases hlen : bs.length < 56
          · rw [encodeLength, if_pos hlen]
            show rlpRun (dfuel + 1) true ((0x80 + bs.length) :: (bs ++ rest)) =
              some ([.str bs], rest)
            simp only [rlpRun]
            rw [if_neg (by omega), if_pos (by omega)]
            have hsub : 0x80 + bs.length - 0x80 = bs.length := by omega
            rw [hsub]
            rw [if_neg (by rw [List.length_append]; omega)]
            rw [List.take_left, List.drop_left]
            rw [if_neg (by rw [hbs]; simp)]
          · rw [encodeLength, if_neg hlen]
            have hk1 : 1 ≤ (beBytes bs.length).length := by
              have := beBytes_ne_nil bs.length (by omega)
              cases hbb : beBytes bs.length with
              | nil => exact absurd hbb this
              | cons x xs => simp
            have hk8 : (beBytes bs.length).length ≤ 8 := by
              apply beBytes_length_le
              rw [pow_256_8]
              exact hsize
            rw [show ((0x80 + 55 + (beBytes bs.length).length) :: beBytes bs.length)
                ++ bs ++ rest
                = (0x80 + 55 + (beBytes bs.length).length)
                  :: (beBytes bs.length ++ (bs ++ rest)) by simp]
            simp only [rlpRun]
            rw [if_neg (by omega), if_neg (by omega), if_pos (by omega)]
            rw [show 0x80 + 55 + (beBytes bs.length).length - 0xb7 =
              (beBytes bs.length).length by omega]
            rw [if_neg (by rw [List.length_append]; omega)]
            rw [List.take_left, List.drop_left]
            rw [if_neg (beBytes_head_ne_zero bs.length (by omega))]
            rw [fromBE_beBytes]
            rw [if_neg (by omega)]
            rw [if_neg (by rw [List.length_append]; omega)]
            rw [List.take_left, List.drop_left]
      | dfuel + 1, ef + 1, .list items =>
        rw [wfbF, Bool.and_eq_true, decide_eq_true_eq] at hwf
        obtain ⟨hall, hsize⟩ := hwf
        rw [encodeItemF_list_succ] at hfl ⊢
        have hplen2 : 2 * (encodeItemsF ef items).length + 1 ≤ dfuel := by
          rw [List.length_append] at hfl
          have := encodeLength_length_pos (encodeItemsF ef items).length 0xc0
          omega
        have hrec := (ih dfuel (by omega)).2 ef items hall hplen2
        by_cases hlen : (encodeItemsF ef items).length < 56
        · rw [encodeLength, if_pos hlen]
          rw [show ([0xc0 + (encodeItemsF ef items).length] ++ encodeItemsF ef items)
              ++ rest
              = (0xc0 + (encodeItemsF ef items).length)
                :: (encodeItemsF ef items ++ rest) by simp]
          simp only [rlpRun]
          rw [if_neg (by omega), if_neg (by omega), if_neg (by omega),
            if_pos (by omega)]
          rw [show 0xc0 + (encodeItemsF ef items).length - 0xc0 =
            (encodeItemsF ef items).length by omega]
          rw [if_neg (by rw [List.length_append]; omega)]
          rw [List.take_left, List.drop_left, hrec]
        · rw [encodeLength, if_neg hlen]
          have hk1 : 1 ≤ (beBytes (encodeItemsF ef items).length).length := by
            have := beBytes_ne_nil (encodeItemsF ef items).length (by omega)
            cases hbb : beBytes (encodeItemsF ef items).length with
            | nil => exact absurd hbb this
            | cons x xs => simp
          have hk8 : (beBytes (encodeItemsF ef items).length).length ≤ 8 := by
            apply beBytes_length_le
            rw [pow_256_8]
            exact hsize
          rw [show ((0xc0 + 55 + (beBytes (encodeItemsF ef items).length).length)
              :: beBytes (encodeItemsF ef items).length) ++ encodeItemsF ef items ++ rest
              = (0xc0 + 55 + (beBytes (encodeItemsF ef items).length).length)
                :: (beBytes (encodeItemsF ef items).length
                  ++ (encodeItemsF ef items ++ rest)) by simp]
          simp only [rlpRun]
          rw [if_neg (by omega), if_neg (by omega), if_neg (by omega),
            if_neg (by omega)]
          rw [show 0xc0 + 55 + (beBytes (encodeItemsF ef items).length).length - 0xf7 =
            (beBytes (encodeItemsF ef items).length).length by omega]
          rw [if_neg (by rw [List.length_append]; omega)]
          rw [List.take_left, List.drop_left]
          rw [if_neg (beBytes_head_ne_zero (encodeItemsF ef items).length (by omega))]
          rw [fromBE_beBytes]
          rw [if_neg (by omega)]
          rw [if_neg (by rw [List.length_append]; omega)]
          rw [List.take_left, List.drop_left, hrec]
    · intro ef items hall hfl
      match dfuel, items with
      | 0, items => omega
      | dfuel + 1, [] =>
        show rlpRun (dfuel + 1) false [] = some ([], [])
        rfl
      | dfuel + 1, it :: its =>
        rw [List.all_cons, Bool.and_eq_true] at hall
        obtain ⟨hit, hits⟩ := hall
        rw [encodeItemsF_cons] at hfl ⊢
        have hpos := encodeItemF_length_pos ef it hit
        rw [List.length_append] at hfl
        have hsingle := (ih dfuel (by omega)).1 ef it (encodeItemsF ef its) hit
          (by omega)
        have hrest := (ih dfuel (by omega)).2 ef its hits (by omega)
        cases he : encodeItemF ef it with
        | nil => rw [he] at hpos; simp at hpos
        | cons x e' =>
          rw [he, List.cons_append] at hsingle
          simp only [rlpRun, List.cons_append]
          rw [hsingle]
          simp [hrest]

/-- A string that is not a canonical single byte always encodes with a header.
A string that is not a canonical single byte always encodes with a header. -/
theorem encodeItemF_str_of_not_single (bs : List Nat)
    (h : ¬(bs.length = 1 ∧ fromBE bs < 0x80)) :
    encodeItemF 1 (.str bs) = encodeLength bs.length 0x80 ++ bs := by
  match bs with
  | [] => rfl
  | [x] =>
    have hx : ¬x < 0x80 := by
      intro hlt
      exact h ⟨rfl, by rw [fromBE_singleton]; exact hlt⟩
    show (if x < 0x80 then [x] else encodeLength 1 0x80 ++ [x]) = _
    rw [if_neg hx]
    rfl
  | b1 :: b2 :: tl => rfl

/-- Completeness of the decoder: a successful decode exhibits its input as the
canonical encoding of the result (the consumed prefix for mode `true`, the
whole input for mode `false`). -/
theorem rlpRun_complete (dfuel : Nat) :
    (∀ input out rest, (∀ b ∈ input, b < 256) →
      rlpRun dfuel true input = some (out, rest) →
      ∃ it ef, out = [it] ∧ wfbF ef it = true ∧ input = encodeItemF ef it ++ rest)
    ∧ (∀ input items z, (∀ b ∈ input, b < 256) →
      rlpRun dfuel false input = some (items, z) →
      z = [] ∧ ∃ ef, items.all (wfbF ef) = true ∧ input = encodeItemsF ef items) := by
  induction dfuel using Nat.strong_induction_on with
  | _ dfuel ih =>
    constructor
    · intro input out rest hbytes h
      match dfuel, input with
      | 0, input => exact absurd h (by simp [rlpRun])
      | dfuel + 1, [] => exact absurd h (by simp [rlpRun])
      | dfuel + 1, b :: rest0 =>
        have hb255 : b < 256 := hbytes b (by simp)
        have hrest0 : ∀ x ∈ rest0, x < 256 := fun x hx => hbytes x (by simp [hx])
        simp only [rlpRun] at h
        by_cases hb1 : b < 0x80
        · rw [if_pos hb1] at h
          simp only [Option.some.injEq, Prod.mk.injEq] at h
          obtain ⟨hout, hrest⟩ := h
          subst hout
          subst hrest
          refine ⟨.str [b], 1, rfl, ?_, ?_⟩
          · show ([b].all (fun x => decide (x < 256)) && decide ((1:Nat) < 2 ^ 64)) = true
            simp [hb255]
          · show b :: rest0 =
              (if b < 0x80 then [b] else encodeLength 1 0x80 ++ [b]) ++ rest0
            rw [if_pos hb1]
            rfl
        · rw [if_neg hb1] at h
          push_neg at hb1
          by_cases hb2 : b < 0xb8
          · rw [if_pos hb2] at h
            by_cases hlen : rest0.length < b - 0x80
            · rw [if_pos hlen] at h
              exact absurd h (by simp)
            · rw [if_neg hlen] at h
              by_cases hcanon : b - 0x80 = 1 ∧ fromBE (rest0.take (b - 0x80)) < 0x80
              · rw [if_pos hcanon] at h
                exact absurd h (by simp)
              · rw [if_neg hcanon] at h
                simp only [Option.some.injEq, Prod.mk.injEq] at h
                obtain ⟨hout, hrest⟩ := h
                subst hout
                subst hrest
                have hlenbs : (rest0.take (b - 0x80)).length = b - 0x80 := by
                  rw [List.length_take]
                  omega
                refine ⟨.str (rest0.take (b - 0x80)), 1, rfl, ?_, ?_⟩
                · show ((rest0.take (b - 0x80)).all (fun x => decide (x < 256)) &&
                    decide ((rest0.take (b - 0x80)).length < 2 ^ 64)) = true
                  rw [Bool.and_eq_true, List.all_eq_true, decide_eq_true_eq, hlenbs]
                  constructor
                  · intro x hx
                    simp only [decide_eq_true_eq]
                    exact hrest0 x (List.take_subset _ _ hx)
                  · omega
                · rw [encodeItemF_str_of_not_single _ (by rw [hlenbs]; exact hcanon)]
                  rw [hlenbs, encodeLength, if_pos (by omega)]
                  rw [show 0x80 + (b - 0x80) = b by omega]
                  rw [List.append_assoc, List.take_append_drop]
                  rfl
          · rw [if_neg hb2] at h
            push_neg at hb2
            by_cases hb3 : b < 0xc0
            · rw [if_pos hb3] at h
              by_cases hll : rest0.length < b - 0xb7
              · rw [if_pos hll] at h
                exact absurd h (by simp)
              · rw [if_neg hll] at h
                by_cases hhead : (rest0.take (b - 0xb7)).head? = some 0
                · rw [if_pos hhead] at h
                  exact absurd h (by simp)
                · rw [if_neg hhead] at h
                  by_cases hlen56 : fromBE (rest0.take (b - 0xb7)) < 56
                  · rw [if_pos hlen56] at h
                    exact absurd h (by simp)
                  · rw [if_neg hlen56] at h
                    by_cases hplen : (rest0.drop (b - 0xb7)).length <
                        fromBE (rest0.take (b - 0xb7))
                    · rw [if_pos hplen] at h
                      exact absurd h (by simp)
                    · rw [if_neg hplen] at h
                      simp only [Option.some.injEq, Prod.mk.injEq] at h
                      obtain ⟨hout, hrest⟩ := h
                      subst hout
                      subst hrest
                      have hlllen : (rest0.take (b - 0xb7)).length = b - 0xb7 := by
                        rw [List.length_take]
                        omega
                      have hlenBbytes : ∀ x ∈ rest0.take (b - 0xb7), x < 256 :=
                        fun x hx => hrest0 x (List.take_subset _ _ hx)
                      have hcanonB : beBytes (fromBE (rest0.take (b - 0xb7))) =
                          rest0.take (b - 0xb7) :=
                        beBytes_fromBE _ hlenBbytes hhead
                      have hlt64 : fromBE (rest0.take (b - 0xb7)) < 2 ^ 64 := by
                        have h1 := fromBE_lt _ hlenBbytes
                        rw [hlllen] at h1
                        calc fromBE (rest0.take (b - 0xb7)) < 256 ^ (b - 0xb7) := h1
                          _ ≤ 256 ^ 8 := Nat.pow_le_pow_right (by omega) (by omega)
                          _ = 2 ^ 64 := pow_256_8
                      have hlen2 : ((rest0.drop (b - 0xb7)).take
                          (fromBE (rest0.take (b - 0xb7)))).length =
                          fromBE (rest0.take (b - 0xb7)) := by
                        rw [List.length_take]
                        omega
                      refine ⟨.str _, 1, rfl, ?_, ?_⟩
                      · show (((rest0.drop (b - 0xb7)).take
                            (fromBE (rest0.take (b - 0xb7)))).all
                              (fun x => decide (x < 256)) &&
                          decide (((rest0.drop (b - 0xb7)).take
                            (fromBE (rest0.take (b - 0xb7)))).length < 2 ^ 64)) = true
                        rw [Bool.and_eq_true, List.all_eq_true, decide_eq_true_eq, hlen2]
                        refine ⟨fun x hx => ?_, hlt64⟩
                        simp only [decide_eq_true_eq]
                        exact hrest0 x (List.drop_subset _ _ (List.take_subset _ _ hx))
                      · rw [encodeItemF_str_of_not_single _
                          (by rw [hlen2]; rintro ⟨h1, _⟩; omega)]
                        rw [hlen2, encodeLength, if_neg (by omega), hcanonB, hlllen]
                        rw [show 0x80 + 55 + (b - 0xb7) = b by omega]
                        simp only [List.cons_append, List.append_assoc]
                        rw [List.take_append_drop, List.take_append_drop]
            · rw [if_neg hb3] at h
              push_neg at hb3
              by_cases hb4 : b < 0xf8
              · rw [if_pos hb4] at h
                by_cases hlen : rest0.length < b - 0xc0
                · rw [if_pos hlen] at h
                  exact absurd h (by simp)
                · rw [if_neg hlen] at h
                  cases hrec : rlpRun dfuel false (rest0.take (b - 0xc0)) with
                  | none =>
                    rw [hrec] at h
                    exact absurd h (by simp)
                  | some pr =>
                    obtain ⟨its, z⟩ := pr
                    rw [hrec] at h
                    simp only [Option.some.injEq, Prod.mk.injEq] at h
                    obtain ⟨hout, hrest⟩ := h
                    subst hout
                    subst hrest
                    have hbytesp : ∀ x ∈ rest0.take (b - 0xc0), x < 256 :=
                      fun x hx => hrest0 x (List.take_subset _ _ hx)
                    obtain ⟨hz, ef, hall, henc⟩ :=
                      (ih dfuel (by omega)).2 _ its z hbytesp hrec
                    have hplen : (rest0.take (b - 0xc0)).length = b - 0xc0 := by
                      rw [List.length_take]
                      omega
                    refine ⟨.list its, ef + 1, rfl, ?_, ?_⟩
                    · show (its.all (wfbF ef) &&
                        decide ((encodeItemsF ef its).length < 2 ^ 64)) = true
                      rw [Bool.and_eq_true, decide_eq_true_eq, ← henc, hplen]
                      exact ⟨hall, by omega⟩
                    · rw [encodeItemF_list_succ, ← henc, hplen, encodeLength,
                        if_pos (by omega)]
                      rw [show 0xc0 + (b - 0xc0) = b by omega]
                      simp only [List.cons_append, List.append_assoc, List.nil_append]
                      rw [List.take_append_drop]
              · rw [if_neg hb4] at h
                push_neg at hb4
                by_cases hll : rest0.length < b - 0xf7
                · rw [if_pos hll] at h
                  exact absurd h (by simp)
                · rw [if_neg hll] at h
                  by_cases hhead : (rest0.take (b - 0xf7)).head? = some 0
                  · rw [if_pos hhead] at h
                    exact absurd h (by simp)
                  · rw [if_neg hhead] at h
                    by_cases hlen56 : fromBE (rest0.take (b - 0xf7)) < 56
                    · rw [if_pos hlen56] at h
                      exact absurd h (by simp)
                    · rw [if_neg hlen56] at h
                      by_cases hplen : (rest0.drop (b - 0xf7)).length <
                          fromBE (rest0.take (b - 0xf7))
                      · rw [if_pos hplen] at h
                        exact absurd h (by simp)
                      · rw [if_neg hplen] at h
                        cases hrec : rlpRun dfuel false
                            ((rest0.drop (b - 0xf7)).take
                              (fromBE (rest0.take (b - 0xf7)))) with
                        | none =>
                          rw [hrec] at h
                          exact absurd h (by simp)
                        | some pr =>
                          obtain ⟨its, z⟩ := pr
                          rw [hrec] at h
                          simp only [Option.some.injEq, Prod.mk.injEq] at h
                          obtain ⟨hout, hrest⟩ := h
                          subst hout
                          subst hrest
                          have hlllen : (rest0.take (b - 0xf7)).length = b - 0xf7 := by
                            rw [List.length_take]
                            omega
                          have hlenBbytes : ∀ x ∈ rest0.take (b - 0xf7), x < 256 :=
                            fun x hx => hrest0 x (List.take_subset _ _ hx)
                          have hcanonB : beBytes (fromBE (rest0.take (b - 0xf7))) =
                              rest0.take (b - 0xf7) :=
                            beBytes_fromBE _ hlenBbytes hhead
                          have hlt64 : fromBE (rest0.take (b - 0xf7)) < 2 ^ 64 := by
                            have h1 := fromBE_lt _ hlenBbytes
                            rw [hlllen] at h1
                            calc fromBE (rest0.take (b - 0xf7)) < 256 ^ (b - 0xf7) := h1
                              _ ≤ 256 ^ 8 := Nat.pow_le_pow_right (by omega) (by omega)
                              _ = 2 ^ 64 := pow_256_8
                          have hbytesp : ∀ x ∈ (rest0.drop (b - 0xf7)).take
                              (fromBE (rest0.take (b - 0xf7))), x < 256 :=
                            fun x hx => hrest0 x
                              (List.drop_subset _ _ (List.take_subset _ _ hx))
                          obtain ⟨hz, ef, hall, henc⟩ :=
                            (ih dfuel (by omega)).2 _ its z hbytesp hrec
                          have hplen2 : ((rest0.drop (b - 0xf7)).take
                              (fromBE (rest0.take (b - 0xf7)))).length =
                              fromBE (rest0.take (b - 0xf7)) := by
                            rw [List.length_take]
                            omega
                          refine ⟨.list its, ef + 1, rfl, ?_, ?_⟩
                          · show (its.all (wfbF ef) &&
                              decide ((encodeItemsF ef its).length < 2 ^ 64)) = true
                            rw [Bool.and_eq_true, decide_eq_true_eq, ← henc, hplen2]
                            exact ⟨hall, hlt64⟩
                          · rw [encodeItemF_list_succ, ← henc, hplen2, encodeLength,
                              if_neg (by omega), hcanonB, hlllen]
                            rw [show 0xc0 + 55 + (b - 0xf7) = b by omega]
                            simp only [List.cons_append, List.append_assoc]
                            rw [List.take_append_drop, List.take_append_drop]
    · intro input items z hbytes h
      match dfuel, input with
      | 0, input => exact absurd h (by simp [rlpRun])
      | dfuel + 1, [] =>
        simp only [rlpRun, Option.some.injEq, Prod.mk.injEq] at h
        obtain ⟨hitems, hz⟩ := h
        subst hitems
        subst hz
        exact ⟨rfl, 1, rfl, rfl⟩
      | dfuel + 1, x :: xs =>
        simp only [rlpRun] at h
        cases hrec1 : rlpRun dfuel true (x :: xs) with
        | none =>
          rw [hrec1] at h
          exact absurd h (by simp)
        | some pr1 =>
          obtain ⟨out1, rest1⟩ := pr1
          rw [hrec1] at h
          obtain ⟨it, ef1, hout1, hwf1, henc1⟩ :=
            (ih dfuel (by omega)).1 _ out1 rest1 hbytes hrec1
          subst hout1
          simp only [] at h
          cases hrec2 : rlpRun dfuel false rest1 with
          | none =>
            rw [hrec2] at h
            exact absurd h (by simp)
          | some pr2 =>
            obtain ⟨its2, z2⟩ := pr2
            rw [hrec2] at h
            simp only [Option.some.injEq, Prod.mk.injEq] at h
            obtain ⟨hitems, hz⟩ := h
            subst hitems
            subst hz
            have hbytes1 : ∀ y ∈ rest1, y < 256 := by
              intro y hy
              apply hbytes
              rw [henc1]
              exact List.mem_append_right _ hy
            obtain ⟨hz2, ef2, hall2, henc2⟩ :=
              (ih dfuel (by omega)).2 rest1 its2 z2 hbytes1 hrec2
            refine ⟨rfl, max ef1 ef2, ?_, ?_⟩
            · rw [List.all_cons, Bool.and_eq_true]
              exact ⟨wfbF_mono ef1 _ it (le_max_left _ _) hwf1,
                all_wfbF_mono ef2 _ its2 (le_max_right _ _) hall2⟩
            · rw [encodeItemsF_cons,
                encodeItemF_stable ef1 (max ef1 ef2) it (le_max_left _ _) hwf1,
                encodeItemsF_stable ef2 (max ef1 ef2) its2 (le_max_right _ _) hall2,
                ← henc2]
              exact henc1

theorem decodeBigInt_intItem (n : Nat) : decodeBigInt (intItem n) = some n := by
  have hhead : (beBytes n).head? ≠ some 0 := by
    by_cases hn : n = 0
    · subst hn
      intro hc
      simp [beBytes, beBytesAux] at hc
    · exact beBytes_head_ne_zero n hn
  show (if (beBytes n).head? = some 0 then none else some (fromBE (beBytes n))) =
    some n
  rw [if_neg hhead, fromBE_beBytes]

theorem viewOfItem_viewItem (v : View) (h1 : 0 ≤ v.round) (h2 : 0 ≤ v.sequence) :
    viewOfItem (viewItem v) = some v := by
  show (match decodeBigInt (intItem v.round.toNat),
      decodeBigInt (intItem v.sequence.toNat) with
    | some rn, some sn => some (⟨(rn : Int), (sn : Int)⟩ : View)
    | _, _ => none) = some v
  rw [decodeBigInt_intItem, decodeBigInt_intItem]
  show some (⟨(v.round.toNat : Int), (v.sequence.toNat : Int)⟩ : View) = some v
  rw [Int.toNat_of_nonneg h1, Int.toNat_of_nonneg h2]

/-- Decoding at the standard fuel inverts the encoder. -/
theorem decodeItem_encode (ef : Nat) (it : RlpItem) (rest : List Nat)
    (hwf : wfbF ef it = true) :
    decodeItem (stdFuel (encodeItemF ef it ++ rest)) (encodeItemF ef it ++ rest) =
      some (it, rest) := by
  unfold decodeItem
  rw [(rlpRun_sound _).1 ef it rest hwf
    (by unfold stdFuel; rw [List.length_append]; omega)]

/-- Any two fuels accepted by `wfbF` give the same encoding. -/
theorem encodeItemF_congr (f g : Nat) (it : RlpItem) (hf : wfbF f it = true)
    (hg : wfbF g it = true) : encodeItemF f it = encodeItemF g it := by
  rcases le_total f g with hle | hle
  · rw [encodeItemF_stable f g it hle hf]
  · rw [encodeItemF_stable g f it hle hg]

theorem viewDecodeRLP_encode (rv v : View) (rest : List Nat)
    (hval : View.validRLP v) :
    View.decodeRLP rv (viewBytes v ++ rest) = (v, true) := by
  obtain ⟨hv1, hv2, hv3⟩ := hval
  unfold View.decodeRLP viewBytes
  rw [decodeItem_encode 2 (viewItem v) rest hv3]
  simp only []
  rw [viewOfItem_viewItem v hv1 hv2]

theorem subjectDecodeRLP_encode (rs : Subject) (s : Subject) (rest : List Nat)
    (hval : Subject.validRLP s) :
    Subject.decodeRLP rs (subjectBytes s ++ rest) = (s, true) := by
  obtain ⟨hs1, hs2, hs3, hs4⟩ := hval
  unfold Subject.decodeRLP subjectBytes
  rw [decodeItem_encode 3 (subjectItem s) rest hs4]
  show (match viewOfItem (viewItem s.view), hashOfItem (.str s.digest) with
    | some w, some d => ((⟨w, d⟩ : Subject), true)
    | _, _ => (rs, false)) = (s, true)
  rw [viewOfItem_viewItem _ hs1 hs2,
    show hashOfItem (.str s.digest) = some s.digest from by
      show (if s.digest.length = 32 then some s.digest else none) = some s.digest
      rw [if_pos hs3]]

theorem preprepareDecodeRLP_encode (rp : Preprepare) (p : Preprepare)
    (rest : List Nat) (fp : Nat) (hpv : 0 ≤ p.view.round ∧ 0 ≤ p.view.sequence)
    (hp : wfbF fp (preprepareItem p) = true) :
    Preprepare.decodeRLP rp (preprepareBytesF fp p ++ rest) = (p, true) := by
  unfold Preprepare.decodeRLP preprepareBytesF
  rw [decodeItem_encode fp (preprepareItem p) rest hp]
  show (match viewOfItem (viewItem p.view) with
    | some w => ((⟨w, p.proposal⟩ : Preprepare), true)
    | none => (rp, false)) = (p, true)
  rw [viewOfItem_viewItem _ hpv.1 hpv.2]

/-- C8: decoding after encoding reproduces the value: for every wire-valid
`View`, `Subject` and `Preprepare`, `EncodeRLP` succeeds with the record's
wire bytes, and `DecodeRLP` of those bytes (followed by any trailing
stream, into any receiver) returns the original value - round, sequence,
digest and proposal all survive the round trip. -/
theorem rlp_encode_then_decode_roundtrip (v : View) (s : Subject) (p : Preprepare)
    (rv : View) (rs : Subject) (rp : Preprepare)
    (restV restS restP : List Nat) (fp : Nat)
    (hv : View.validRLP v) (hs : Subject.validRLP s)
    (hpv : 0 ≤ p.view.round ∧ 0 ≤ p.view.sequence)
    (hp : wfbF fp (preprepareItem p) = true) :
    View.encodeRLP v = some (viewBytes v)
      ∧ View.decodeRLP rv (viewBytes v ++ restV) = (v, true)
      ∧ Subject.encodeRLP s = some (subjectBytes s)
      ∧ Subject.decodeRLP rs (subjectBytes s ++ restS) = (s, true)
      ∧ Preprepare.decodeRLP rp (preprepareBytesF fp p ++ restP) = (p, true) :=
  ⟨by rw [View.encodeRLP, if_pos ⟨hv.1, hv.2.1⟩],
    viewDecodeRLP_encode rv v restV hv,
    by rw [Subject.encodeRLP, if_pos ⟨hs.1, hs.2.1⟩],
    subjectDecodeRLP_encode rs s restS hs,
    preprepareDecodeRLP_encode rp p restP fp hpv hp⟩

theorem wfbF_ge_one (f : Nat) (it : RlpItem) (h : wfbF f it = true) : 1 ≤ f := by
  match f with
  | 0 => simp [wfbF] at h
  | e + 1 => omega

theorem wfbF_list_elim (f : Nat) (items : List RlpItem)
    (h : wfbF f (.list items) = true) :
    ∃ e, f = e + 1 ∧ items.all (wfbF e) = true ∧
      (encodeItemsF e items).length < 2 ^ 64 := by
  match f with
  | 0 => simp [wfbF] at h
  | e + 1 =>
    rw [wfbF, Bool.and_eq_true, decide_eq_true_eq] at h
    exact ⟨e, rfl, h.1, h.2⟩

theorem wfbF_str_elim (f : Nat) (bs : List Nat) (h : wfbF f (.str bs) = true) :
    (∀ b ∈ bs, b < 256) ∧ bs.length < 2 ^ 64 := by
  match f with
  | 0 => simp [wfbF] at h
  | e + 1 =>
    rw [wfbF, Bool.and_eq_true, List.all_eq_true, decide_eq_true_eq] at h
    exact ⟨fun b hb => by simpa using h.1 b hb, h.2⟩

theorem wfbF_str_intro (bs : List Nat) (hb : ∀ b ∈ bs, b < 256)
    (hl : bs.length < 2 ^ 64) : wfbF 1 (.str bs) = true := by
  rw [wfbF, Bool.and_eq_true, List.all_eq_true, decide_eq_true_eq]
  exact ⟨fun b hbm => by simpa using hb b hbm, hl⟩

/-- A successfully decoded prefix is the canonical encoding of the result. -/
theorem decodeItem_complete (fuel : Nat) (input : List Nat) (it : RlpItem)
    (rest : List Nat) (hbytes : ∀ b ∈ input, b < 256)
    (h : decodeItem fuel input = some (it, rest)) :
    ∃ ef, wfbF ef it = true ∧ input = encodeItemF ef it ++ rest := by
  unfold decodeItem at h
  cases hr : rlpRun fuel true input with
  | none =>
    rw [hr] at h
    exact absurd h (by simp)
  | some pr =>
    obtain ⟨out, r⟩ := pr
    rw [hr] at h
    obtain ⟨it', ef, hout, hwf, henc⟩ := (rlpRun_complete fuel).1 input out r hbytes hr
    subst hout
    simp only [Option.some.injEq, Prod.mk.injEq] at h
    obtain ⟨h1, h2⟩ := h
    subst h1
    subst h2
    exact ⟨ef, hwf, henc⟩

theorem decodeBigInt_inv (r : RlpItem) (rn : Nat) (e : Nat)
    (hwf : wfbF e r = true) (h : decodeBigInt r = some rn) :
    r = intItem rn := by
  match r with
  | .list items => simp [decodeBigInt] at h
  | .str rb =>
    obtain ⟨hbytes, _⟩ := wfbF_str_elim e rb hwf
    by_cases hh : rb.head? = some 0
    · rw [show decodeBigInt (.str rb) =
        (if rb.head? = some 0 then none else some (fromBE rb)) from rfl,
        if_pos hh] at h
      exact absurd h (by simp)
    · rw [show decodeBigInt (.str rb) =
        (if rb.head? = some 0 then none else some (fromBE rb)) from rfl,
        if_neg hh] at h
      simp only [Option.some.injEq] at h
      subst h
      unfold intItem
      rw [beBytes_fromBE rb hbytes hh]

/-- A decoded `View` record exposes its item as the canonical `viewItem` and
its bytes as `viewBytes`. -/
theorem viewOfItem_inv (it : RlpItem) (w : View) (ef : Nat)
    (hwf : wfbF ef it = true) (h : viewOfItem it = some w) :
    it = viewItem w ∧ View.validRLP w ∧ encodeItemF ef it = viewBytes w := by
  match it with
  | .str bs => simp [viewOfItem] at h
  | .list [] => simp [viewOfItem] at h
  | .list [r] => simp [viewOfItem] at h
  | .list (r :: s :: t :: ts) => simp [viewOfItem] at h
  | .list [r, s] =>
    obtain ⟨e, hef, hall, hsize⟩ := wfbF_list_elim ef _ hwf
    simp only [List.all_cons, List.all_nil, Bool.and_eq_true, Bool.and_true] at hall
    obtain ⟨hwr, hws⟩ := hall
    simp only [viewOfItem] at h
    cases hr : decodeBigInt r with
    | none =>
      rw [hr] at h
      simp at h
    | some rn =>
      rw [hr] at h
      cases hs' : decodeBigInt s with
      | none =>
        rw [hs'] at h
        simp at h
      | some sn =>
        rw [hs'] at h
        simp only [Option.some.injEq] at h
        subst h
        have hre := decodeBigInt_inv r rn e hwr hr
        have hse := decodeBigInt_inv s sn e hws hs'
        subst hre
        subst hse
        have hview : viewItem ⟨(rn : Int), (sn : Int)⟩ =
            RlpItem.list [intItem rn, intItem sn] := by
          unfold viewItem
          rw [show ((⟨(rn : Int), (sn : Int)⟩ : View)).round = (rn : Int) from rfl,
            show ((⟨(rn : Int), (sn : Int)⟩ : View)).sequence = (sn : Int) from rfl,
            Int.toNat_natCast, Int.toNat_natCast]
        have he1 : 1 ≤ e := wfbF_ge_one e _ hwr
        have hall1 : [intItem rn, intItem sn].all (wfbF 1) = true := by
          simp only [List.all_cons, List.all_nil, Bool.and_eq_true, Bool.and_true]
          constructor
          · exact wfbF_str_intro _ (beBytes_all_lt rn)
              ((wfbF_str_elim e _ hwr).2)
          · exact wfbF_str_intro _ (beBytes_all_lt sn)
              ((wfbF_str_elim e _ hws).2)
        have hwf2 : wfbF 2 (RlpItem.list [intItem rn, intItem sn]) = true := by
          rw [wfbF, Bool.and_eq_true, decide_eq_true_eq]
          refine ⟨hall1, ?_⟩
          rw [encodeItemsF_stable 1 e _ he1 hall1] at hsize
          exact hsize
        refine ⟨hview.symm, ⟨Int.natCast_nonneg rn, Int.natCast_nonneg sn, ?_⟩, ?_⟩
        · rw [hview]
          exact hwf2
        · unfold viewBytes
          rw [hview]
          exact encodeItemF_congr ef 2 _ hwf hwf2

theorem viewDecodeRLP_err (v0 : View) (input : List Nat)
    (h : (View.decodeRLP v0 input).2 = false) :
    (View.decodeRLP v0 input).1 = v0 := by
  unfold View.decodeRLP at h ⊢
  cases hdec : decodeItem (stdFuel input) input with
  | none => rfl
  | some pr =>
    obtain ⟨it, r⟩ := pr
    rw [hdec] at h
    cases hvi : viewOfItem it with
    | none => simp [hvi]
    | some w => simp [hvi] at h

theorem subjectDecodeRLP_err (s0 : Subject) (input : List Nat)
    (h : (Subject.decodeRLP s0 input).2 = false) :
    (Subject.decodeRLP s0 input).1 = s0 := by
  unfold Subject.decodeRLP at h ⊢
  cases hdec : decodeItem (stdFuel input) input with
  | none => rfl
  | some pr =>
    obtain ⟨it, r⟩ := pr
    rw [hdec] at h
    match it with
    | .str bs => rfl
    | .list [] => rfl
    | .list [a] => rfl
    | .list (a :: b :: c :: t) => rfl
    | .list [vi, di] =>
      cases hvi : viewOfItem vi with
      | none => simp [hvi]
      | some w =>
        cases hdi : hashOfItem di with
        | none => simp [hvi, hdi]
        | some d => simp [hvi, hdi] at h

theorem preprepareDecodeRLP_err (p0 : Preprepare) (input : List Nat)
    (h : (Preprepare.decodeRLP p0 input).2 = false) :
    (Preprepare.decodeRLP p0 input).1 = p0 := by
  unfold Preprepare.decodeRLP at h ⊢
  cases hdec : decodeItem (stdFuel input) input with
  | none => rfl
  | some pr =>
    obtain ⟨it, r⟩ := pr
    rw [hdec] at h
    match it with
    | .str bs => rfl
    | .list [] => rfl
    | .list [a] => rfl
    | .list (a :: b :: c :: t) => rfl
    | .list [vi, pi] =>
      cases hvi : viewOfItem vi with
      | none => simp [hvi]
      | some w => simp [hvi] at h

theorem viewDecodeRLP_complete (v0 : View) (input : List Nat)
    (hbytes : ∀ b ∈ input, b < 256)
    (hsucc : (View.decodeRLP v0 input).2 = true) : isViewStream input := by
  unfold View.decodeRLP at hsucc
  cases hdec : decodeItem (stdFuel input) input with
  | none =>
    rw [hdec] at hsucc
    simp at hsucc
  | some pr =>
    obtain ⟨it, r⟩ := pr
    rw [hdec] at hsucc
    cases hvi : viewOfItem it with
    | none => simp [hvi] at hsucc
    | some w =>
      obtain ⟨ef, hwf, henc⟩ :=
        decodeItem_complete (stdFuel input) input it r hbytes hdec
      obtain ⟨hit, hval, hbytesEq⟩ := viewOfItem_inv it w ef hwf hvi
      exact ⟨w, r, hval, by rw [henc, hbytesEq]⟩

theorem preprepareDecodeRLP_complete (p0 : Preprepare) (input : List Nat)
    (hbytes : ∀ b ∈ input, b < 256)
    (hsucc : (Preprepare.decodeRLP p0 input).2 = true) : isPreprepareStream input := by
  unfold Preprepare.decodeRLP at hsucc
  cases hdec : decodeItem (stdFuel input) input with
  | none =>
    rw [hdec] at hsucc
    simp at hsucc
  | some pr =>
    obtain ⟨it, r⟩ := pr
    rw [hdec] at hsucc
    match it, hdec with
    | .str bs, hdec => simp at hsucc
    | .list [], hdec => simp at hsucc
    | .list [a], hdec => simp at hsucc
    | .list (a :: b :: c :: t), hdec => simp at hsucc
    | .list [vi, pi], hdec =>
      cases hvi : viewOfItem vi with
      | none => simp [hvi] at hsucc
      | some w =>
        obtain ⟨ef, hwf, henc⟩ :=
          decodeItem_complete (stdFuel input) input _ r hbytes hdec
        obtain ⟨e, hef, hall, hsize⟩ := wfbF_list_elim ef _ hwf
        simp only [List.all_cons, List.all_nil, Bool.and_eq_true, Bool.and_true] at hall
        obtain ⟨hwvi, hwpi⟩ := hall
        obtain ⟨hvit, hvval, _⟩ := viewOfItem_inv vi w e hwvi hvi
        refine ⟨⟨w, pi⟩, ef, r, hvval.1, hvval.2.1, ?_, ?_⟩
        · show wfbF ef (.list [viewItem w, pi]) = true
          rw [← hvit]
          exact hwf
        · show input = encodeItemF ef (.list [viewItem w, pi]) ++ r
          rw [← hvit]
          exact henc

theorem encodeItemsF_pair (f : Nat) (a b : RlpItem) :
    encodeItemsF f [a, b] = encodeItemF f a ++ encodeItemF f b := by
  simp [encodeItemsF]

theorem subjectDecodeRLP_complete (s0 : Subject) (input : List Nat)
    (hbytes : ∀ b ∈ input, b < 256)
    (hsucc : (Subject.decodeRLP s0 input).2 = true) : isSubjectStream input := by
  unfold Subject.decodeRLP at hsucc
  cases hdec : decodeItem (stdFuel input) input with
  | none =>
    rw [hdec] at hsucc
    simp at hsucc
  | some pr =>
    obtain ⟨it, r⟩ := pr
    rw [hdec] at hsucc
    match it, hdec with
    | .str bs, hdec => simp at hsucc
    | .list [], hdec => simp at hsucc
    | .list [a], hdec => simp at hsucc
    | .list (a :: b :: c :: t), hdec => simp at hsucc
    | .list [vi, di], hdec =>
      cases hvi : viewOfItem vi with
      | none => simp [hvi] at hsucc
      | some w =>
        cases hdi : hashOfItem di with
        | none => simp [hvi, hdi] at hsucc
        | some d =>
          obtain ⟨ef, hwf, henc⟩ :=
            decodeItem_complete (stdFuel input) input _ r hbytes hdec
          obtain ⟨e, hef, hall, hsize⟩ := wfbF_list_elim ef _ hwf
          simp only [List.all_cons, List.all_nil, Bool.and_eq_true,
            Bool.and_true] at hall
          obtain ⟨hwvi, hwdi⟩ := hall
          obtain ⟨hvit, hvval, hviBytes⟩ := viewOfItem_inv vi w e hwvi hvi
          subst hvit
          have hdit : di = RlpItem.str d ∧ d.length = 32 := by
            match di, hdi with
            | .list l, hdi => simp [hashOfItem] at hdi
            | .str bs, hdi =>
              by_cases hl : bs.length = 32
              · rw [show hashOfItem (.str bs) =
                  (if bs.length = 32 then some bs else none) from rfl,
                  if_pos hl] at hdi
                simp only [Option.some.injEq] at hdi
                subst hdi
                exact ⟨rfl, hl⟩
              · rw [show hashOfItem (.str bs) =
                  (if bs.length = 32 then some bs else none) from rfl,
                  if_neg hl] at hdi
                exact absurd hdi (by simp)
          obtain ⟨hdit1, hdlen⟩ := hdit
          subst hdit1
          obtain ⟨hdbytes, hdsize⟩ := wfbF_str_elim e d hwdi
          obtain ⟨hw1, hw2, hwview2⟩ := hvval
          have he1 : 1 ≤ e := wfbF_ge_one e _ hwdi
          have hd1 : wfbF 1 (RlpItem.str d) = true :=
            wfbF_str_intro d hdbytes hdsize
          have hd2 : wfbF 2 (RlpItem.str d) = true := hd1
          have hdstable : encodeItemF e (RlpItem.str d) = encodeItemF 1 (.str d) :=
            encodeItemF_stable 1 e _ he1 hd1
          have hpair : encodeItemsF 2 [viewItem w, RlpItem.str d] =
              encodeItemsF e [viewItem w, RlpItem.str d] := by
            rw [encodeItemsF_pair, encodeItemsF_pair, hviBytes, hdstable]
            rfl
          have hwf3 : wfbF 3 (subjectItem ⟨w, d⟩) = true := by
            show wfbF 3 (RlpItem.list [viewItem w, .str d]) = true
            rw [wfbF, Bool.and_eq_true, decide_eq_true_eq]
            constructor
            · simp only [List.all_cons, List.all_nil, Bool.and_eq_true, Bool.and_true]
              exact ⟨hwview2, hd2⟩
            · rw [hpair]
              exact hsize
          refine ⟨⟨w, d⟩, r, ⟨hw1, hw2, hdlen, hwf3⟩, ?_⟩
          rw [henc]
          unfold subjectBytes
          rw [show subjectItem ⟨w, d⟩ = RlpItem.list [viewItem w, .str d] from rfl,
            encodeItemF_congr ef 3 _ hwf hwf3]

/-- C9: `DecodeRLP` on `View`, `Subject` and `Preprepare` fails on every
malformed or truncated byte stream, leaving the receiver's fields
unmodified (no silently defaulted value), and succeeds exactly when the
stream starts with a well-formed encoding of the type's ordered field
record. -/
theorem decodeRLP_rejects_malformed (input : List Nat) (v0 : View) (s0 : Subject)
    (p0 : Preprepare) (hbytes : ∀ b ∈ input, b < 256) :
    ((View.decodeRLP v0 input).2 = false → (View.decodeRLP v0 input).1 = v0)
      ∧ ((View.decodeRLP v0 input).2 = true ↔ isViewStream input)
      ∧ ((Subject.decodeRLP s0 input).2 = false →
        (Subject.decodeRLP s0 input).1 = s0)
      ∧ ((Subject.decodeRLP s0 input).2 = true ↔ isSubjectStream input)
      ∧ ((Preprepare.decodeRLP p0 input).2 = false →
        (Preprepare.decodeRLP p0 input).1 = p0)
      ∧ ((Preprepare.decodeRLP p0 input).2 = true ↔ isPreprepareStream input) := by
  refine ⟨viewDecodeRLP_err v0 input,
    ⟨viewDecodeRLP_complete v0 input hbytes, ?_⟩,
    subjectDecodeRLP_err s0 input,
    ⟨subjectDecodeRLP_complete s0 input hbytes, ?_⟩,
    preprepareDecodeRLP_err p0 input,
    ⟨preprepareDecodeRLP_complete p0 input hbytes, ?_⟩⟩
  · rintro ⟨v, rest, hval, rfl⟩
    rw [viewDecodeRLP_encode v0 v rest hval]
  · rintro ⟨s, rest, hval, rfl⟩
    rw [subjectDecodeRLP_encode s0 s rest hval]
  · rintro ⟨p, f, rest, h1, h2, h3, rfl⟩
    rw [preprepareDecodeRLP_encode p0 p rest f ⟨h1, h2⟩ h3]

/-- Witness for C9 at a concrete (truncated) stream. -/
theorem decodeRLP_rejects_malformed_witness :
    ((View.decodeRLP ⟨7, 8⟩ [0xc2, 0x80]).2 = false →
        (View.decodeRLP ⟨7, 8⟩ [0xc2, 0x80]).1 = ⟨7, 8⟩)
      ∧ ((View.decodeRLP ⟨7, 8⟩ [0xc2, 0x80]).2 = true ↔
        isViewStream [0xc2, 0x80])
      ∧ ((Subject.decodeRLP ⟨⟨7, 8⟩, []⟩ [0xc2, 0x80]).2 = false →
        (Subject.decodeRLP ⟨⟨7, 8⟩, []⟩ [0xc2, 0x80]).1 = ⟨⟨7, 8⟩, []⟩)
      ∧ ((Subject.decodeRLP ⟨⟨7, 8⟩, []⟩ [0xc2, 0x80]).2 = true ↔
        isSubjectStream [0xc2, 0x80])
      ∧ ((Preprepare.decodeRLP ⟨⟨7, 8⟩, .str []⟩ [0xc2, 0x80]).2 = false →
        (Preprepare.decodeRLP ⟨⟨7, 8⟩, .str []⟩ [0xc2, 0x80]).1 = ⟨⟨7, 8⟩, .str []⟩)
      ∧ ((Preprepare.decodeRLP ⟨⟨7, 8⟩, .str []⟩ [0xc2, 0x80]).2 = true ↔
        isPreprepareStream [0xc2, 0x80]) :=
  decodeRLP_rejects_malformed [0xc2, 0x80] ⟨7, 8⟩ ⟨⟨7, 8⟩, []⟩ ⟨⟨7, 8⟩, .str []⟩
    (by decide)

/-- Witness for C8 at concrete values. -/
theorem rlp_encode_then_decode_roundtrip_witness :
    View.encodeRLP ⟨1, 2⟩ = some (viewBytes ⟨1, 2⟩)
      ∧ View.decodeRLP ⟨9, 9⟩ (viewBytes ⟨1, 2⟩ ++ [0]) = (⟨1, 2⟩, true)
      ∧ Subject.encodeRLP ⟨⟨0, 5⟩, List.replicate 32 7⟩ =
          some (subjectBytes ⟨⟨0, 5⟩, List.replicate 32 7⟩)
      ∧ Subject.decodeRLP ⟨⟨9, 9⟩, []⟩
          (subjectBytes ⟨⟨0, 5⟩, List.replicate 32 7⟩ ++ []) =
          (⟨⟨0, 5⟩, List.replicate 32 7⟩, true)
      ∧ Preprepare.decodeRLP ⟨⟨9, 9⟩, .str []⟩
          (preprepareBytesF 5 ⟨⟨3, 4⟩, .list [.str [0xab]]⟩ ++ []) =
          (⟨⟨3, 4⟩, .list [.str [0xab]]⟩, true) :=
  rlp_encode_then_decode_roundtrip ⟨1, 2⟩ ⟨⟨0, 5⟩, List.replicate 32 7⟩
    ⟨⟨3, 4⟩, .list [.str [0xab]]⟩ ⟨9, 9⟩ ⟨⟨9, 9⟩, []⟩ ⟨⟨9, 9⟩, .str []⟩
    [0] [] [] 5 (by decide) (by decide) (by decide) (by decide)

end Istanbul
